import Mathlib

/-!
# Verification of the live media-analysis pipeline core

A shallow embedding, in Lean 4, of the core components of the
`4-live-media-analysis-agent` pipeline:

* `ShotChangeDetector` (`src/shared/shot_change_detector.py`)
* `StreamMonitor` (`03-modality-fused-understanding/components/stream_monitor.py`)
* `ChunkProcessor._verify_chunk_ready` (`components/chunk_processor.py`)
* `FusionAnalyzer` merge / overlap-detection / parse / context-windowing logic
  (`components/fusion_analyzer.py`)
* `AdaptiveFilmstripProcessor.calculate_optimal_layout`
  (`src/shared/filmstrip_processor.py`)

Modelling conventions:

* Python floats are modelled as exact rationals (`ℚ`); Python ints as `ℤ`/`ℕ`.
* Python `//` (floor division) on ints is `Int.fdiv`; Python `int(x)` is
  truncation toward zero (`ratTrunc` below).
* Python dicts are association lists with replace-in-place insertion; a field
  whose *key* may be absent and whose value may additionally be JSON `null`
  is an `Option (Option _)` (outer = key presence, inner = null vs. value).
* External collaborators (OpenCV image primitives, `json.loads`, the
  floating-point square-root path of the optional file-size constraint) are
  parameters of the definitions; every theorem below is either independent of
  them or holds for all instantiations.
-/

namespace MediaPipeline

/-- Python `int(x)` applied to a float/rational: truncation toward zero. -/
def ratTrunc (q : ℚ) : ℤ :=
  if q < 0 then -((-q).floor) else q.floor

/-- Python `//` on integers: floor division. -/
def pyFloorDiv (a b : ℤ) : ℤ := Int.fdiv a b

theorem pyFloorDiv_eq_ediv (a : ℤ) {b : ℤ} (hb : 0 < b) : pyFloorDiv a b = a / b :=
  Int.fdiv_eq_ediv a (le_of_lt hb)

theorem pyFloorDiv_mul_le (a : ℤ) {b : ℤ} (hb : 0 < b) : pyFloorDiv a b * b ≤ a := by
  rw [pyFloorDiv_eq_ediv a hb]
  exact (Int.le_ediv_iff_mul_le hb).mp le_rfl

theorem pyFloorDiv_le_iff {a b m : ℤ} (hb : 0 < b) :
    pyFloorDiv a b ≤ m ↔ a < (m + 1) * b := by
  rw [pyFloorDiv_eq_ediv a hb, ← Int.lt_add_one_iff, Int.ediv_lt_iff_lt_mul hb]

theorem le_pyFloorDiv_iff {a b m : ℤ} (hb : 0 < b) :
    m ≤ pyFloorDiv a b ↔ m * b ≤ a := by
  rw [pyFloorDiv_eq_ediv a hb, Int.le_ediv_iff_mul_le hb]

/-! ## ShotChangeDetector (`src/shared/shot_change_detector.py`)

Frames and histograms are opaque data handled by OpenCV; the detector only
ever feeds them to three deterministic primitives, which we take as
parameters bundled in `Vision`:

* `histOf` — `cv2.calcHist` of the HSV conversion of a frame
  (the body of the histogram computations in `_detect_histogram_single` /
  `_compare_frames_histogram`);
* `corrLt h1 h2` — `cv2.compareHist(h1, h2, HISTCMP_CORREL) < self.threshold`;
* `mseGt f1 f2` — `self._calculate_mse(f1, f2) > self.threshold`.

The threshold is fixed at construction, so it is folded into the comparators.
-/

structure Vision (Frame Hist : Type) where
  histOf : Frame → Hist
  corrLt : Hist → Hist → Bool
  mseGt : Frame → Frame → Bool

inductive DetMethod where
  | histogram
  | mse
deriving DecidableEq, Repr

/-- Mutable state of one `ShotChangeDetector` instance. -/
structure Detector (Frame Hist : Type) where
  method : DetMethod
  enableCrossChunk : Bool
  lastFrame : Option Frame
  previousHistogram : Option Hist

/-- A freshly constructed detector (`__init__`): no retained state. -/
def mkDetector {Frame Hist : Type} (m : DetMethod) (cross : Bool) :
    Detector Frame Hist :=
  { method := m, enableCrossChunk := cross, lastFrame := none,
    previousHistogram := none }

/-- `_compare_frames_histogram` / `_compare_frames_mse`, dispatched on the
configured method as in `detect_batch`. -/
def compareFrames {Frame Hist : Type} (v : Vision Frame Hist) (m : DetMethod)
    (f1 f2 : Frame) : Bool :=
  match m with
  | .histogram => v.corrLt (v.histOf f1) (v.histOf f2)
  | .mse => v.mseGt f1 f2

/-- `detect_single`: stateful single-frame detection.  Returns the flag and
the updated detector (the elapsed-time component is wall-clock bookkeeping
and carries no information).  Note the method dispatch: histogram mode uses
`previous_histogram`, MSE mode uses `last_frame`. -/
def detectSingle {Frame Hist : Type} (v : Vision Frame Hist)
    (d : Detector Frame Hist) (f : Frame) : Bool × Detector Frame Hist :=
  match d.method with
  | .histogram =>
    let h := v.histOf f
    match d.previousHistogram with
    | some ph => (v.corrLt ph h, { d with previousHistogram := some h })
    | none => (false, { d with previousHistogram := some h })
  | .mse =>
    match d.lastFrame with
    | some lf => (v.mseGt lf f, { d with lastFrame := some f })
    | none => (false, { d with lastFrame := some f })

/-- The inner loop of `detect_batch`: flags for positions `1..` obtained by
comparing each frame with its predecessor. -/
def pairFlags {Frame Hist : Type} (v : Vision Frame Hist) (m : DetMethod) :
    Frame → List Frame → List Bool
  | _, [] => []
  | prev, f :: rest => compareFrames v m prev f :: pairFlags v m f rest

/-- `detect_batch`.  Empty batch returns `[]`; a singleton batch returns
`[False]` before the cross-chunk comparison or the last-frame store is ever
reached (the `len(frames) < 2` early return); otherwise position 0 is the
cross-chunk comparison against the retained previous frame (when enabled and
available) and positions `1..` compare adjacent frames.  The batch's last
frame is retained only in cross-chunk mode. -/
def detectBatch {Frame Hist : Type} (v : Vision Frame Hist)
    (d : Detector Frame Hist) (frames : List Frame) :
    List Bool × Detector Frame Hist :=
  match frames with
  | [] => ([], d)
  | [_] => ([false], d)
  | f0 :: f1 :: rest =>
    let head : Bool :=
      match d.enableCrossChunk, d.lastFrame with
      | true, some lf => compareFrames v d.method lf f0
      | _, _ => false
    let flags := head :: pairFlags v d.method f0 (f1 :: rest)
    let d' :=
      if d.enableCrossChunk then
        { d with lastFrame := some ((f1 :: rest).getLast (List.cons_ne_nil f1 rest)) }
      else d
    (flags, d')

/-- Feeding frames one at a time through `detect_single`, collecting flags. -/
def detectSingleSeq {Frame Hist : Type} (v : Vision Frame Hist)
    (d : Detector Frame Hist) : List Frame → List Bool × Detector Frame Hist
  | [] => ([], d)
  | f :: rest =>
    let r := detectSingle v d f
    let rs := detectSingleSeq v r.2 rest
    (r.1 :: rs.1, rs.2)

/-- **C7.**  `detect_batch` on a batch of length 0 returns the empty list and
on a batch of length 1 returns `[false]` — for *every* detector state and
configuration.  In particular the flag sequence is all-`false` for batches of
length ≤ 1; the claim's allowance that position 0 "may be true under
cross-batch mode" is never exercised for a singleton batch, because the
`len(frames) < 2` early return precedes the cross-chunk comparison. -/
theorem detect_batch_short_batches {Frame Hist : Type} (v : Vision Frame Hist)
    (d : Detector Frame Hist) (f : Frame) :
    (detectBatch v d []).1 = [] ∧ (detectBatch v d [f]).1 = [false] :=
  ⟨rfl, rfl⟩

/-- Single-frame histogram replay, once a first frame has been absorbed,
produces exactly the adjacent-pair comparisons. -/
theorem detectSingleSeq_histogram_aux {Frame Hist : Type} (v : Vision Frame Hist)
    (cross : Bool) (lf : Option Frame) (prev : Frame) (fs : List Frame) :
    (detectSingleSeq v
      { method := .histogram, enableCrossChunk := cross, lastFrame := lf,
        previousHistogram := some (v.histOf prev) } fs).1
      = pairFlags v .histogram prev fs := by
  induction fs generalizing prev lf with
  | nil => rfl
  | cons f rest ih =>
    simp only [detectSingleSeq, detectSingle, pairFlags, compareFrames]
    exact congrArg _ (ih _ f)

/-- Single-frame MSE replay, once a first frame has been absorbed, produces
exactly the adjacent-pair comparisons. -/
theorem detectSingleSeq_mse_aux {Frame Hist : Type} (v : Vision Frame Hist)
    (cross : Bool) (ph : Option Hist) (prev : Frame) (fs : List Frame) :
    (detectSingleSeq v
      { method := .mse, enableCrossChunk := cross, lastFrame := some prev,
        previousHistogram := ph } fs).1
      = pairFlags v .mse prev fs := by
  induction fs generalizing prev ph with
  | nil => rfl
  | cons f rest ih =>
    simp only [detectSingleSeq, detectSingle, pairFlags, compareFrames]
    exact congrArg _ (ih _ f)

/-- **C8.**  Batch/single equivalence: for every frame sequence, method, and
(fixed) threshold — i.e. every instantiation of the comparison primitives —
replaying the frames one at a time through `detect_single` on a fresh
detector yields exactly the same boolean sequence as a single `detect_batch`
call on a fresh detector with the same configuration.  On fresh detectors no
cross-batch state is available, so the two sequences agree at index 0 as
well. -/
theorem detect_single_batch_equiv {Frame Hist : Type} (v : Vision Frame Hist)
    (m : DetMethod) (cross : Bool) (frames : List Frame) :
    (detectSingleSeq v (mkDetector m cross) frames).1
      = (detectBatch v (mkDetector m cross) frames).1 := by
  match frames with
  | [] => rfl
  | [f] =>
    cases m <;> rfl
  | f0 :: f1 :: rest =>
    cases m with
    | histogram =>
      show (detectSingleSeq v (mkDetector .histogram cross) (f0 :: f1 :: rest)).1 = _
      simp only [detectSingleSeq, detectSingle, mkDetector, detectBatch]
      rw [detectSingleSeq_histogram_aux]
      rfl
    | mse =>
      show (detectSingleSeq v (mkDetector .mse cross) (f0 :: f1 :: rest)).1 = _
      simp only [detectSingleSeq, detectSingle, mkDetector, detectBatch]
      rw [detectSingleSeq_mse_aux]
      rfl

/-! ## StreamMonitor (`components/stream_monitor.py`)

`time.time()` values and the observed chunk counter are inputs; the monitor's
mutable fields are the state.  `stream_appears_ended` calls `time.time()`
once inside `update_activity` (`t1`) and once for the timeout test (`t2`);
we pass both explicitly.  The `transcription_was_running` flag is instance
state maintained by the monitor's caller (it is initialised to `False` in
`__init__` and only read inside this module). -/

structure TranscriptionView where
  /-- `hasattr(self.transcription_processor, 'is_running')` -/
  hasIsRunning : Bool
  /-- `self.transcription_processor.is_running` -/
  isRunning : Bool

structure StreamMonitor where
  streamTimeout : ℚ
  lastActivityTime : ℚ
  lastChunkCount : ℕ
  transcriptionWasRunning : Bool

/-- Default of the `stream_timeout` constructor argument. -/
def defaultStreamTimeout : ℚ := 60

/-- `StreamMonitor.__init__` (chunk/transcription processor handles are
captured by the views passed to each call). -/
def initStreamMonitor (now timeout : ℚ) : StreamMonitor :=
  { streamTimeout := timeout, lastActivityTime := now, lastChunkCount := 0,
    transcriptionWasRunning := false }

/-- `update_activity`: refresh the activity clock when the chunk counter has
advanced. -/
def updateActivity (m : StreamMonitor) (now : ℚ) (chunkCount : ℕ) :
    Bool × StreamMonitor :=
  if m.lastChunkCount < chunkCount then
    (true, { m with lastActivityTime := now, lastChunkCount := chunkCount })
  else
    (false, m)

/-- `stream_appears_ended`: transcription-stop signal first, then the
activity-timeout signal (after refreshing activity). -/
def streamAppearsEnded (m : StreamMonitor) (t1 t2 : ℚ) (chunkCount : ℕ)
    (tr : TranscriptionView) : Bool × StreamMonitor :=
  if m.transcriptionWasRunning && tr.hasIsRunning && !tr.isRunning then
    (true, m)
  else
    let m' := (updateActivity m t1 chunkCount).2
    (decide (m.streamTimeout ≤ t2 - m'.lastActivityTime), m')

/-- **C6.**  Stream-end detection fires on either of two independent
signals: (a) if the chunk counter has not advanced and the last activity is
at least `stream_timeout` seconds old, `stream_appears_ended` returns
`True`; (b) if the transcription processor was running at some earlier
point and is no longer running, it returns `True` — regardless of chunk
activity.  The default `stream_timeout` is 60 seconds. -/
theorem stream_appears_ended_signals (m : StreamMonitor) (t1 t2 : ℚ)
    (chunkCount : ℕ) (tr : TranscriptionView) :
    ((chunkCount ≤ m.lastChunkCount ∧ m.streamTimeout ≤ t2 - m.lastActivityTime) ∨
       (m.transcriptionWasRunning = true ∧ tr.hasIsRunning = true ∧
         tr.isRunning = false) →
      (streamAppearsEnded m t1 t2 chunkCount tr).1 = true) ∧
    defaultStreamTimeout = 60 := by
  refine ⟨fun h => ?_, rfl⟩
  unfold streamAppearsEnded
  rcases h with ⟨hcnt, htime⟩ | ⟨hwas, hattr, hrun⟩
  · split
    · rfl
    · have hna : ¬ m.lastChunkCount < chunkCount := not_lt.mpr hcnt
      simp only [updateActivity, if_neg hna]
      exact decide_eq_true htime
  · rw [hwas, hattr, hrun]
    rfl

/-- Witness for `stream_appears_ended_signals`: signal (a) fires on a
monitor whose last activity is 60 seconds old with no counter advance. -/
theorem stream_appears_ended_signals_witness :
    (streamAppearsEnded (initStreamMonitor 0 defaultStreamTimeout) 100 100 0
      ⟨true, true⟩).1 = true :=
  (stream_appears_ended_signals (initStreamMonitor 0 defaultStreamTimeout)
    100 100 0 ⟨true, true⟩).1
    (Or.inl ⟨le_rfl, by norm_num [initStreamMonitor, defaultStreamTimeout]⟩)

/-! ## ChunkProcessor._verify_chunk_ready (`components/chunk_processor.py`)

The file system and `ffprobe` are collaborators; one call observes the
file's existence, its size, and the outcome of the probe.  `ProbeOutcome.error`
covers every exceptional path inside the `try` block (subprocess failure or
timeout, non-zero return code, JSON parse failure, non-numeric duration) —
all are caught and reported as not-ready.  A successful probe yields the
parsed duration (`probe_data['format']['duration']`, defaulting to `0` when
the key is missing). -/

inductive ProbeOutcome where
  | error
  | ok (duration : ℚ)
deriving DecidableEq

structure FileView where
  fileExists : Bool
  size : ℕ
  probe : ProbeOutcome

/-- `_verify_chunk_ready(file_path, is_final)`; `chunkDuration` is
`self.chunk_duration` (default 20). -/
def verifyChunkReady (chunkDuration : ℚ) (f : FileView) (isFinal : Bool) :
    Bool :=
  if !f.fileExists then false
  else if f.size < 50000 then false
  else
    match f.probe with
    | .error => false
    | .ok d =>
      if isFinal then decide ((1 : ℚ) ≤ d)
      else decide (|d - chunkDuration| ≤ 1)

/-- **C10 counterexample.**  The claim "for every non-final chunk file, the
chunk is reported ready exactly when the probed duration is within 1 second
of the expected duration" fails: a file whose probe reports 19.5 s against
an expected 20 s (well within tolerance) is still reported not-ready when
the file is smaller than the 50 000-byte minimum-size gate. -/
theorem verify_chunk_ready_size_gate_counterexample :
    verifyChunkReady 20 ⟨true, 1000, .ok (39 / 2)⟩ false = false ∧
      |(39 / 2 : ℚ) - 20| ≤ 1 := by
  constructor
  · rfl
  · norm_num [abs_le]

/-- **C10 (amended).**  `_verify_chunk_ready` reports a chunk ready exactly
when the file exists, is at least 50 000 bytes, the duration probe succeeds,
and the probed duration is within 1 second of the expected chunk duration
(for a designated final chunk: any duration ≥ 1 second).  In particular a
probed 19.4 s against an expected 20 s passes and 18.5 s fails, and any
probe error yields not-ready (no exception escapes: the embedding is total
because every exceptional path is folded into `ProbeOutcome.error`). -/
theorem verify_chunk_ready_characterisation (chunkDuration : ℚ) (f : FileView)
    (isFinal : Bool) :
    verifyChunkReady chunkDuration f isFinal = true ↔
      (f.fileExists = true ∧ 50000 ≤ f.size ∧
        ∃ d, f.probe = .ok d ∧
          (if isFinal then (1 : ℚ) ≤ d else |d - chunkDuration| ≤ 1)) := by
  obtain ⟨ex, sz, probe⟩ := f
  unfold verifyChunkReady
  cases ex <;> cases probe <;>
    simp [Nat.not_lt, and_comm]

/-! ## FusionAnalyzer: incremental chapter/topic merge
(`components/fusion_analyzer.py`, `_process_incremental_updates`)

Chapters and topics are Python dicts.  A key that the code distinguishes
from its value being `None` (`'id' not in topic`, `'_id' not in h`) is an
`Option JStr`; the remaining keys are always (re)written by the creating
action, so their values are carried directly.  `start_time`/`end_time`
carry the numeric values of the model's actions (the spec's §4.5 response
contract); `topic.get('start_time', 0)` key-absence defaults are modelled by
the `Option ℚ` with `.getD 0` at the use sites. -/

/-- A JSON string-or-null value. -/
abbrev JStr := Option String

structure Topic where
  /-- `'id'` — outer `none` = key absent, inner = null vs. string. -/
  idKey : Option JStr
  /-- `'topic_summary'` -/
  summary : JStr
  /-- `'start_time'` — `none` = key absent. -/
  startTime : Option ℚ
  /-- `'end_time'` -/
  endTime : Option ℚ
  /-- `'chunks'` -/
  chunks : List ℕ
deriving DecidableEq, Repr

structure Chapter where
  /-- `'_id'` — outer `none` = key absent. -/
  idKey : Option JStr
  /-- `'chapter'` (title) -/
  title : JStr
  /-- `'confidence'` -/
  confidence : ℚ
  topics : List Topic
deriving DecidableEq, Repr

/-- One element of the model's `actions` array.  `new_chapter` /`new_topic`
carry the values the code reads with `action.get(...)` (with the code's
defaults applied: `confidence` 0, `chunks` `[]`); `update_topic` fields are
`none` when the corresponding key is absent from the action (the code
patches a field only when its key is present).  An unrecognised `type`
falls through every branch. -/
inductive FusionAction where
  | newChapter (id : JStr) (title : JStr) (confidence : ℚ)
  | newTopic (chapterId : JStr) (id : JStr) (summary : JStr)
      (startTime endTime : ℚ) (chunks : List ℕ)
  | updateTopic (id : JStr) (summary : Option JStr)
      (startTime endTime : Option ℚ) (chunks : Option (List ℕ))
  | unknown
deriving DecidableEq, Repr

/-- `topic_map`: a Python dict keyed by the topic-id value (which may be
`None`), mapping to `(chapter_index, topic_index)`.  Insertion replaces an
existing key in place, otherwise appends — exactly a dict's behaviour on an
association list without duplicate keys. -/
abbrev TopicMap := List (JStr × ℕ × ℕ)

def dictLookup : TopicMap → JStr → Option (ℕ × ℕ)
  | [], _ => none
  | e :: rest, k => if e.1 = k then some e.2 else dictLookup rest k

def dictInsert : TopicMap → JStr → ℕ × ℕ → TopicMap
  | [], k, v => [(k, v)]
  | e :: rest, k, v =>
    if e.1 = k then (k, v) :: rest else e :: dictInsert rest k v

/-- In-place update of the `i`-th element (Python `lst[i] = ...` /
field assignment through a reference).  Out-of-range indices never occur in
the executions the code performs (the id→index map only ever holds indices
of existing chapters/topics, which are never removed). -/
def listModify {α : Type _} : List α → ℕ → (α → α) → List α
  | [], _, _ => []
  | x :: rest, 0, f => f x :: rest
  | x :: rest, n + 1, f => x :: listModify rest n f

/-- The `topic_map` construction loop, which also assigns
`f"t{len(topic_map) + 1}"` ids to topics missing the `'id'` key
(mutating the copied structure), for the topics of one chapter. -/
def preprocessTopics (hIdx : ℕ) : List Topic → ℕ → TopicMap → List Topic × TopicMap
  | [], _, m => ([], m)
  | t :: rest, tIdx, m =>
    let t' :=
      match t.idKey with
      | none => { t with idKey := some (some ("t" ++ toString (m.length + 1))) }
      | some _ => t
    let m' := dictInsert m (t'.idKey.getD none) (hIdx, tIdx)
    let r := preprocessTopics hIdx rest (tIdx + 1) m'
    (t' :: r.1, r.2)

/-- The outer `topic_map` construction loop over all chapters. -/
def preprocessChapters : List Chapter → ℕ → TopicMap → List Chapter × TopicMap
  | [], _, m => ([], m)
  | c :: rest, hIdx, m =>
    let p := preprocessTopics hIdx c.topics 0 m
    let r := preprocessChapters rest (hIdx + 1) p.2
    ({ c with topics := p.1 } :: r.1, r.2)

/-- The `new_topic` chapter lookup: scan chapters in order, assigning
`f"h{i+1}"` to any chapter missing `'_id'` along the way, and stop at the
first chapter whose (possibly just-assigned) `'_id'` equals `chapter_id`. -/
def findChapterAssign : List Chapter → JStr → ℕ → List Chapter × Option ℕ
  | [], _, _ => ([], none)
  | c :: rest, cid, i =>
    let c' :=
      match c.idKey with
      | none => { c with idKey := some (some ("h" ++ toString (i + 1))) }
      | some _ => c
    if c'.idKey.getD none = cid then (c' :: rest, some i)
    else
      let r := findChapterAssign rest cid (i + 1)
      (c' :: r.1, r.2)

/-- The field patch applied by `update_topic` (each field only when its key
is present in the action; the `'id'` field is never touched). -/
def patchTopic (summary : Option JStr) (st et : Option ℚ)
    (chunks : Option (List ℕ)) (t : Topic) : Topic :=
  let t1 := match summary with | none => t | some v => { t with summary := v }
  let t2 := match st with | none => t1 | some q => { t1 with startTime := some q }
  let t3 := match et with | none => t2 | some q => { t2 with endTime := some q }
  match chunks with | none => t3 | some l => { t3 with chunks := l }

/-- One iteration of the action loop in `_process_incremental_updates`
(the `_create_memory_event_for_topic` calls are external side effects with
no influence on the structure). -/
def applyAction (st : List Chapter × TopicMap) (a : FusionAction) :
    List Chapter × TopicMap :=
  match a with
  | .newChapter id title conf =>
    (st.1 ++ [{ idKey := some id, title := title, confidence := conf,
                topics := [] }], st.2)
  | .newTopic cid id summary s e chunks =>
    let r := findChapterAssign st.1 cid 0
    match r.2 with
    | none => (r.1, st.2)
    | some hIdx =>
      let tIdx := match r.1.get? hIdx with
        | some c => c.topics.length
        | none => 0
      let newT : Topic :=
        { idKey := some id, summary := summary, startTime := some s,
          endTime := some e, chunks := chunks }
      (listModify r.1 hIdx (fun c => { c with topics := c.topics ++ [newT] }),
       dictInsert st.2 id (hIdx, tIdx))
  | .updateTopic id summary s e chunks =>
    match dictLookup st.2 id with
    | none => st
    | some (hIdx, tIdx) =>
      (listModify st.1 hIdx
        (fun c => { c with
          topics := listModify c.topics tIdx (patchTopic summary s e chunks) }),
       st.2)
  | .unknown => st

/-- The chapter-structure part of `_process_incremental_updates`: build the
id→index maps (assigning missing ids), then apply the actions in array
order.  The code also maintains a `chapter_map` keyed by chapter *title*;
it is written (at construction and on `new_chapter`) but never read —
`new_topic` locates chapters by a linear scan on `'_id'` — so it has no
observable effect and is not carried here. -/
def processActions (cs : List Chapter) (acts : List FusionAction) :
    List Chapter :=
  (acts.foldl applyAction (preprocessChapters cs 0 [])).1

/-- The `'_id'` values of chapters whose key is present. -/
def chapterIds (cs : List Chapter) : List JStr := cs.filterMap (·.idKey)

def topicIdsOf (c : Chapter) : List JStr := c.topics.filterMap (·.idKey)

/-- The `'id'` values of topics whose key is present, across all chapters. -/
def topicIds (cs : List Chapter) : List JStr := cs.flatMap topicIdsOf

theorem patchTopic_idKey (summary : Option JStr) (st et : Option ℚ)
    (chunks : Option (List ℕ)) (t : Topic) :
    (patchTopic summary st et chunks t).idKey = t.idKey := by
  unfold patchTopic
  cases summary <;> cases st <;> cases et <;> cases chunks <;> rfl

theorem listModify_filterMap {α β : Type _} (f : α → α) (g : α → Option β)
    (hg : ∀ x, g (f x) = g x) :
    ∀ (l : List α) (i : ℕ), (listModify l i f).filterMap g = l.filterMap g
  | [], _ => rfl
  | x :: rest, 0 => by
    simp [listModify, List.filterMap_cons, hg x]
  | x :: rest, n + 1 => by
    simp only [listModify, List.filterMap_cons]
    rw [listModify_filterMap f g hg rest n]

theorem listModify_flatMap_extra {α β : Type _} (f : α → α) (h : α → List β)
    (ex : List β) (hf : ∀ x, h (f x) ⊆ h x ++ ex) :
    ∀ (l : List α) (i : ℕ), (listModify l i f).flatMap h ⊆ l.flatMap h ++ ex
  | [], _ => by simp [listModify]
  | x :: rest, 0 => by
    simp only [listModify, List.flatMap_cons]
    intro b hb
    rcases List.mem_append.mp hb with hb | hb
    · rcases List.mem_append.mp (hf x hb) with hb | hb
      · exact List.mem_append_left _ (List.mem_append_left _ hb)
      · exact List.mem_append_right _ hb
    · exact List.mem_append_left _ (List.mem_append_right _ hb)
  | x :: rest, n + 1 => by
    simp only [listModify, List.flatMap_cons]
    intro b hb
    rcases List.mem_append.mp hb with hb | hb
    · exact List.mem_append_left _ (List.mem_append_left _ hb)
    · rcases List.mem_append.mp
        (listModify_flatMap_extra f h ex hf rest n hb) with hb | hb
      · exact List.mem_append_left _ (List.mem_append_right _ hb)
      · exact List.mem_append_right _ hb

theorem listModify_flatMap_mono {α β : Type _} (f : α → α) (h : α → List β)
    (hf : ∀ x, h x ⊆ h (f x)) :
    ∀ (l : List α) (i : ℕ), l.flatMap h ⊆ (listModify l i f).flatMap h
  | [], _ => by simp [listModify]
  | x :: rest, 0 => by
    simp only [listModify, List.flatMap_cons]
    intro b hb
    rcases List.mem_append.mp hb with hb | hb
    · exact List.mem_append_left _ (hf x hb)
    · exact List.mem_append_right _ hb
  | x :: rest, n + 1 => by
    simp only [listModify, List.flatMap_cons]
    intro b hb
    rcases List.mem_append.mp hb with hb | hb
    · exact List.mem_append_left _ hb
    · exact List.mem_append_right _
        (listModify_flatMap_mono f h hf rest n hb)

theorem listModify_flatMap_eq {α β : Type _} (f : α → α) (h : α → List β)
    (hf : ∀ x, h (f x) = h x) :
    ∀ (l : List α) (i : ℕ), (listModify l i f).flatMap h = l.flatMap h
  | [], _ => rfl
  | x :: rest, 0 => by simp [listModify, hf x]
  | x :: rest, n + 1 => by
    simp only [listModify, List.flatMap_cons]
    rw [listModify_flatMap_eq f h hf rest n]

theorem preprocessTopics_ids (hIdx : ℕ) :
    ∀ (ts : List Topic) (tIdx : ℕ) (m : TopicMap),
      ts.filterMap (·.idKey) ⊆ (preprocessTopics hIdx ts tIdx m).1.filterMap (·.idKey)
  | [], _, _ => by simp [preprocessTopics]
  | t :: rest, tIdx, m => by
    cases ht : t.idKey with
    | none =>
      simp only [preprocessTopics, ht, List.filterMap_cons]
      intro b hb
      exact List.mem_cons_of_mem _ (preprocessTopics_ids hIdx rest _ _ hb)
    | some v =>
      simp only [preprocessTopics, ht, List.filterMap_cons]
      intro b hb
      rcases List.mem_cons.mp hb with hb | hb
      · exact hb ▸ List.mem_cons_self _ _
      · exact List.mem_cons_of_mem _ (preprocessTopics_ids hIdx rest _ _ hb)

theorem preprocessChapters_chapterIds :
    ∀ (cs : List Chapter) (hIdx : ℕ) (m : TopicMap),
      chapterIds (preprocessChapters cs hIdx m).1 = chapterIds cs
  | [], _, _ => rfl
  | c :: rest, hIdx, m => by
    simp only [preprocessChapters, chapterIds, List.filterMap_cons]
    have := preprocessChapters_chapterIds rest (hIdx + 1)
      (preprocessTopics hIdx c.topics 0 m).2
    simp only [chapterIds] at this
    rw [this]

theorem preprocessChapters_topicIds :
    ∀ (cs : List Chapter) (hIdx : ℕ) (m : TopicMap),
      topicIds cs ⊆ topicIds (preprocessChapters cs hIdx m).1
  | [], _, _ => by simp [preprocessChapters, topicIds]
  | c :: rest, hIdx, m => by
    simp only [preprocessChapters, topicIds, List.flatMap_cons]
    intro b hb
    rcases List.mem_append.mp hb with hb | hb
    · exact List.mem_append_left _
        (preprocessTopics_ids hIdx c.topics 0 m hb)
    · exact List.mem_append_right _
        (preprocessChapters_topicIds rest (hIdx + 1) _ hb)

theorem findChapterAssign_chapterIds :
    ∀ (cs : List Chapter) (cid : JStr) (i : ℕ),
      chapterIds cs ⊆ chapterIds (findChapterAssign cs cid i).1
  | [], _, _ => by simp [findChapterAssign]
  | c :: rest, cid, i => by
    have ih := findChapterAssign_chapterIds rest cid (i + 1)
    cases hc : c.idKey with
    | none =>
      simp only [findChapterAssign, hc]
      split
      · simp only [chapterIds, List.filterMap_cons, hc]
        exact fun b hb => List.mem_cons_of_mem _ hb
      · simp only [chapterIds, List.filterMap_cons, hc]
        exact fun b hb => List.mem_cons_of_mem _ (ih hb)
    | some v =>
      simp only [findChapterAssign, hc]
      split
      · exact fun b hb => hb
      · simp only [chapterIds, List.filterMap_cons, hc]
        intro b hb
        rcases List.mem_cons.mp hb with hb | hb
        · exact hb ▸ List.mem_cons_self _ _
        · exact List.mem_cons_of_mem _ (ih hb)

theorem findChapterAssign_topicIds :
    ∀ (cs : List Chapter) (cid : JStr) (i : ℕ),
      topicIds (findChapterAssign cs cid i).1 = topicIds cs
  | [], _, _ => rfl
  | c :: rest, cid, i => by
    cases hc : c.idKey with
    | none =>
      simp only [findChapterAssign, hc]
      split
      · rfl
      · simp only [topicIds, List.flatMap_cons]
        rw [show topicIdsOf { c with
            idKey := some (some ("h" ++ toString (i + 1))) } = topicIdsOf c from rfl]
        have := findChapterAssign_topicIds rest cid (i + 1)
        simp only [topicIds] at this
        rw [this]
    | some v =>
      simp only [findChapterAssign, hc]
      split
      · rfl
      · simp only [topicIds, List.flatMap_cons]
        have := findChapterAssign_topicIds rest cid (i + 1)
        simp only [topicIds] at this
        rw [this]

theorem applyAction_ids_mono (st : List Chapter × TopicMap) (a : FusionAction) :
    chapterIds st.1 ⊆ chapterIds (applyAction st a).1 ∧
      topicIds st.1 ⊆ topicIds (applyAction st a).1 := by
  obtain ⟨cs, m⟩ := st
  cases a with
  | newChapter id title conf =>
    constructor
    · simp [applyAction, chapterIds]
    · simp [applyAction, topicIds]
  | newTopic cid id summary s e chunks =>
    simp only [applyAction]
    cases hr : (findChapterAssign cs cid 0).2 with
    | none =>
      simp only [hr]
      refine ⟨findChapterAssign_chapterIds cs cid 0, fun b hb => ?_⟩
      rw [findChapterAssign_topicIds cs cid 0]
      exact hb
    | some hIdx =>
      simp only [hr]
      constructor
      · intro b hb
        have hb1 := findChapterAssign_chapterIds cs cid 0 hb
        have heq := listModify_filterMap
          (fun c => { c with topics := c.topics ++
            [{ idKey := some id, summary := summary, startTime := some s,
               endTime := some e, chunks := chunks }] })
          (·.idKey) (fun _ => rfl) (findChapterAssign cs cid 0).1 hIdx
        simpa only [chapterIds, heq] using hb1
      · intro b hb
        have hb1 : b ∈ topicIds (findChapterAssign cs cid 0).1 :=
          (findChapterAssign_topicIds cs cid 0).symm ▸ hb
        have hsub := listModify_flatMap_mono
          (fun c => { c with topics := c.topics ++
            [{ idKey := some id, summary := summary, startTime := some s,
               endTime := some e, chunks := chunks }] })
          topicIdsOf
          (fun x => by
            simp only [topicIdsOf, List.filterMap_append, List.filterMap_cons,
              List.filterMap_nil]
            exact List.subset_append_left _ _)
          (findChapterAssign cs cid 0).1 hIdx
        exact hsub hb1
  | updateTopic id summary s e chunks =>
    simp only [applyAction]
    cases hl : dictLookup m id with
    | none => exact ⟨fun b hb => hb, fun b hb => hb⟩
    | some p =>
      obtain ⟨hIdx, tIdx⟩ := p
      simp only
      constructor
      · intro b hb
        have heq := listModify_filterMap
          (fun c => { c with
            topics := listModify c.topics tIdx (patchTopic summary s e chunks) })
          (·.idKey) (fun _ => rfl) cs hIdx
        simpa [chapterIds, heq] using hb
      · intro b hb
        have heq := listModify_flatMap_eq
          (fun c => { c with
            topics := listModify c.topics tIdx (patchTopic summary s e chunks) })
          topicIdsOf
          (fun x => by
            simp only [topicIdsOf]
            exact listModify_filterMap _ (·.idKey)
              (fun t => patchTopic_idKey summary s e chunks t) x.topics tIdx)
          cs hIdx
        simpa [topicIds, heq] using hb
  | unknown => exact ⟨fun b hb => hb, fun b hb => hb⟩

theorem foldl_applyAction_ids_mono :
    ∀ (acts : List FusionAction) (st : List Chapter × TopicMap),
      chapterIds st.1 ⊆ chapterIds (acts.foldl applyAction st).1 ∧
        topicIds st.1 ⊆ topicIds (acts.foldl applyAction st).1
  | [], _ => ⟨fun _ hb => hb, fun _ hb => hb⟩
  | a :: rest, st => by
    have h1 := applyAction_ids_mono st a
    have h2 := foldl_applyAction_ids_mono rest (applyAction st a)
    exact ⟨h1.1.trans h2.1, h1.2.trans h2.2⟩

/-- Keys of a dict after insertion. -/
theorem dictInsert_keys :
    ∀ (m : TopicMap) (k : JStr) (v : ℕ × ℕ),
      (dictInsert m k v).map (·.1) ⊆ k :: m.map (·.1)
  | [], _, _ => by simp [dictInsert]
  | e :: rest, k, v => by
    simp only [dictInsert]
    split
    · simp
    · intro b hb
      simp only [List.map_cons, List.mem_cons] at hb ⊢
      rcases hb with hb | hb
      · exact Or.inr (Or.inl hb)
      · rcases List.mem_cons.mp (dictInsert_keys rest k v hb) with hb | hb
        · exact Or.inl hb
        · exact Or.inr (Or.inr hb)

theorem dictLookup_eq_none :
    ∀ (m : TopicMap) (k : JStr), k ∉ m.map (·.1) → dictLookup m k = none
  | [], _, _ => rfl
  | e :: rest, k, h => by
    have h1 : ¬ e.1 = k := fun he => h (by simp [he])
    have h2 : k ∉ rest.map (·.1) := fun hm => h (by simp [hm])
    simp only [dictLookup, if_neg h1]
    exact dictLookup_eq_none rest k h2

/-- When every topic already carries an `'id'` key, the `topic_map` build
leaves the topics untouched and only records keys drawn from the existing
topic ids. -/
theorem preprocessTopics_keyed (hIdx : ℕ) :
    ∀ (ts : List Topic) (tIdx : ℕ) (m : TopicMap),
      (∀ t ∈ ts, t.idKey ≠ none) →
      (preprocessTopics hIdx ts tIdx m).1 = ts ∧
        (preprocessTopics hIdx ts tIdx m).2.map (·.1) ⊆
          m.map (·.1) ++ ts.filterMap (·.idKey)
  | [], _, _, _ => ⟨rfl, by simp [preprocessTopics]⟩
  | t :: rest, tIdx, m, h => by
    obtain ⟨v, hv⟩ := Option.ne_none_iff_exists'.mp (h t (List.mem_cons_self t rest))
    have hrest := preprocessTopics_keyed hIdx rest (tIdx + 1)
      (dictInsert m (t.idKey.getD none) (hIdx, tIdx))
      (fun t' ht' => h t' (List.mem_cons_of_mem t ht'))
    rw [hv] at hrest
    simp only [Option.getD_some] at hrest
    constructor
    · simp only [preprocessTopics, hv, Option.getD_some]
      exact congrArg _ hrest.1
    · simp only [preprocessTopics, hv, Option.getD_some]
      intro b hb
      have hb1 := hrest.2 hb
      rcases List.mem_append.mp hb1 with hb1 | hb1
      · rcases List.mem_cons.mp (dictInsert_keys m _ _ hb1) with hb1 | hb1
        · subst hb1
          refine List.mem_append_right _ ?_
          simp [List.filterMap_cons, hv]
        · exact List.mem_append_left _ hb1
      · refine List.mem_append_right _ ?_
        simp only [List.filterMap_cons, hv]
        exact List.mem_cons_of_mem _ hb1

/-- When every topic of every chapter has an `'id'` key, preprocessing
leaves the chapters unchanged and the map's keys are existing topic ids. -/
theorem preprocessChapters_keyed :
    ∀ (cs : List Chapter) (hIdx : ℕ) (m : TopicMap),
      (∀ c ∈ cs, ∀ t ∈ c.topics, t.idKey ≠ none) →
      (preprocessChapters cs hIdx m).1 = cs ∧
        (preprocessChapters cs hIdx m).2.map (·.1) ⊆
          m.map (·.1) ++ topicIds cs
  | [], _, _, _ => ⟨rfl, by simp [preprocessChapters, topicIds]⟩
  | c :: rest, hIdx, m, h => by
    have hc := preprocessTopics_keyed hIdx c.topics 0 m
      (h c (List.mem_cons_self c rest))
    have hrest := preprocessChapters_keyed rest (hIdx + 1)
      (preprocessTopics hIdx c.topics 0 m).2
      (fun c' hc' => h c' (List.mem_cons_of_mem c hc'))
    constructor
    · simp only [preprocessChapters]
      rw [hrest.1, hc.1]
    · simp only [preprocessChapters]
      intro b hb
      rcases List.mem_append.mp (hrest.2 hb) with hb1 | hb1
      · rcases List.mem_append.mp (hc.2 hb1) with hb2 | hb2
        · exact List.mem_append_left _ hb2
        · refine List.mem_append_right _ ?_
          simp only [topicIds, List.flatMap_cons]
          exact List.mem_append_left _ hb2
      · refine List.mem_append_right _ ?_
        simp only [topicIds, List.flatMap_cons]
        exact List.mem_append_right _ hb1

/-- **C1.**  The merge is append-only: for every starting structure and
every sequence of actions, every chapter id and every topic id present
before `_process_incremental_updates` applies the actions is still present
afterwards — actions only append new chapters/topics or patch fields of
existing topics, never delete.  Moreover an `update_topic` whose id matches
no existing topic (on a structure whose topics all carry ids, as every
structure built by the merge does) leaves the chapter structure entirely
unchanged — and, the embedding being total, does not raise. -/
theorem merge_append_only (cs : List Chapter) (acts : List FusionAction) :
    ((∀ cid ∈ chapterIds cs, cid ∈ chapterIds (processActions cs acts)) ∧
      (∀ tid ∈ topicIds cs, tid ∈ topicIds (processActions cs acts))) ∧
    (∀ (uid : JStr) (summary : Option JStr) (s e : Option ℚ)
        (ch : Option (List ℕ)),
      (∀ c ∈ cs, ∀ t ∈ c.topics, t.idKey ≠ none) →
      uid ∉ topicIds cs →
      processActions cs [.updateTopic uid summary s e ch] = cs) := by
  constructor
  · have hpre1 := preprocessChapters_chapterIds cs 0 []
    have hpre2 := preprocessChapters_topicIds cs 0 []
    have hfold := foldl_applyAction_ids_mono acts (preprocessChapters cs 0 [])
    exact ⟨fun cid hc => hfold.1 (hpre1 ▸ hc),
      fun tid ht => hfold.2 (hpre2 ht)⟩
  · intro uid summary s e ch hkeyed huid
    have hpre := preprocessChapters_keyed cs 0 [] hkeyed
    have hkeys : uid ∉ (preprocessChapters cs 0 []).2.map (·.1) := by
      intro hmem
      have := hpre.2 hmem
      simp only [List.map_nil, List.nil_append] at this
      exact huid this
    have hnone := dictLookup_eq_none _ uid hkeys
    show (List.foldl applyAction (preprocessChapters cs 0 [])
      [.updateTopic uid summary s e ch]).1 = cs
    simp only [List.foldl_cons, List.foldl_nil, applyAction, hnone]
    exact hpre.1

/-- Witness for `merge_append_only`: a two-chapter structure survives a
mixed action sequence, and an `update_topic` for the unknown id `"zz"` is a
no-op. -/
theorem merge_append_only_witness :
    processActions
        [⟨some (some "h1"), some "Ch1", 1,
          [⟨some (some "t1"), some "s", some 0, some 20, [0]⟩]⟩]
        [.updateTopic (some "zz") (some (some "x")) none (some 99) none]
      = [⟨some (some "h1"), some "Ch1", 1,
          [⟨some (some "t1"), some "s", some 0, some 20, [0]⟩]⟩] :=
  (merge_append_only
    [⟨some (some "h1"), some "Ch1", 1,
      [⟨some (some "t1"), some "s", some 0, some 20, [0]⟩]⟩] []).2
    (some "zz") (some (some "x")) none (some 99) none
    (by decide) (by decide)

/-! ## FusionAnalyzer: per-chunk analysis results -/

structure Sentence where
  startTime : ℚ
  endTime : ℚ
  sentence : String
deriving DecidableEq, Repr

/-- The cumulative analysis result stored per chunk.  `time_range` is the
formatted string of the pair `(startTime, endTime)`; we carry the pair. -/
structure AnalysisResult where
  chapters : List Chapter
  chunkId : ℕ
  startTime : ℚ
  endTime : ℚ
  transcript : String
  transcriptSentences : List Sentence
  /-- `analysis_status`, passed through opaquely from the model response
  (`incremental_result.get('analysis_status', {})`). -/
  analysisStatus : Option String
deriving DecidableEq, Repr

/-- The parsed model response: `{"actions": [...]}`, the `actions` key
defaulting to `[]` when absent, plus the opaque `analysis_status` block. -/
structure IncrementalResult where
  actions : Option (List FusionAction)
  analysisStatus : Option String
deriving DecidableEq, Repr

/-- `self.analysis_results`: a dict keyed by `chunk_id`. -/
abbrev ResultsMap := List (ℕ × AnalysisResult)

def resultsLookup : ResultsMap → ℕ → Option AnalysisResult
  | [], _ => none
  | e :: rest, k => if e.1 = k then some e.2 else resultsLookup rest k

def resultsInsert : ResultsMap → ℕ → AnalysisResult → ResultsMap
  | [], k, v => [(k, v)]
  | e :: rest, k, v =>
    if e.1 = k then (k, v) :: rest else e :: resultsInsert rest k v

/-- `_process_incremental_updates`: start from a deep copy of the previous
chunk's stored result when `chunk_id > 0` and chunk `chunk_id - 1` has an
entry, otherwise from an empty chapter list; then apply the actions. -/
def processIncrementalUpdates (results : ResultsMap) (inc : IncrementalResult)
    (chunkId : ℕ) (startT endT : ℚ) (ttext : String) (tsent : List Sentence) :
    AnalysisResult :=
  let startChapters :=
    if 0 < chunkId then
      match resultsLookup results (chunkId - 1) with
      | some prev => prev.chapters
      | none => []
    else []
  { chapters := processActions startChapters (inc.actions.getD [])
    chunkId := chunkId
    startTime := startT
    endTime := endT
    transcript := ttext
    transcriptSentences := tsent
    analysisStatus := inc.analysisStatus }

/-- The chapter id introduced by a `new_chapter` action, if any. -/
def newChapterId : FusionAction → Option JStr
  | .newChapter id _ _ => some id
  | _ => none

/-- The topic id introduced by a `new_topic` action, if any. -/
def newTopicId : FusionAction → Option JStr
  | .newTopic _ id _ _ _ _ => some id
  | _ => none

theorem findChapterAssign_all_present :
    ∀ (cs : List Chapter) (cid : JStr) (i : ℕ),
      (∀ c ∈ cs, c.idKey ≠ none) → (findChapterAssign cs cid i).1 = cs
  | [], _, _, _ => rfl
  | c :: rest, cid, i, h => by
    obtain ⟨v, hv⟩ := Option.ne_none_iff_exists'.mp (h c (List.mem_cons_self c rest))
    simp only [findChapterAssign, hv]
    split
    · rfl
    · exact congrArg _ (findChapterAssign_all_present rest cid (i + 1)
        (fun c' hc' => h c' (List.mem_cons_of_mem c hc')))

theorem listModify_forall {α : Type _} (f : α → α) (p : α → Prop)
    (hf : ∀ x, p x → p (f x)) :
    ∀ (l : List α) (i : ℕ), (∀ x ∈ l, p x) → ∀ x ∈ listModify l i f, p x
  | [], _, _ => by simp [listModify]
  | x :: rest, 0, h => by
    simp only [listModify, List.mem_cons]
    rintro y (rfl | hy)
    · exact hf x (h x (List.mem_cons_self x rest))
    · exact h y (List.mem_cons_of_mem x hy)
  | x :: rest, n + 1, h => by
    simp only [listModify, List.mem_cons]
    intro y hy
    rcases hy with h1 | h2
    · exact h1 ▸ h x (List.mem_cons_self x rest)
    · exact listModify_forall f p hf rest n
        (fun z hz => h z (List.mem_cons_of_mem x hz)) y h2

/-- Provenance of ids, on structures whose chapters all carry `'_id'`
keys: one action step keeps all chapters keyed, and can only add the
chapter/topic id it itself introduces. -/
theorem applyAction_ids_provenance (st : List Chapter × TopicMap)
    (a : FusionAction) (hk : ∀ c ∈ st.1, c.idKey ≠ none) :
    (∀ c ∈ (applyAction st a).1, c.idKey ≠ none) ∧
      chapterIds (applyAction st a).1 ⊆
        chapterIds st.1 ++ (newChapterId a).toList ∧
      topicIds (applyAction st a).1 ⊆
        topicIds st.1 ++ (newTopicId a).toList := by
  obtain ⟨cs, m⟩ := st
  cases a with
  | newChapter id title conf =>
    refine ⟨?_, ?_, ?_⟩
    · simp only [applyAction, List.mem_append, List.mem_singleton]
      rintro c (hc | rfl)
      · exact hk c hc
      · simp
    · simp [applyAction, chapterIds, newChapterId, List.filterMap_append]
    · simp [applyAction, topicIds, newTopicId, topicIdsOf]
  | newTopic cid id summary s e chunks =>
    have hfind := findChapterAssign_all_present cs cid 0 hk
    simp only [applyAction, hfind]
    cases hr : (findChapterAssign cs cid 0).2 with
    | none =>
      simp only [hr, hfind]
      exact ⟨hk, by simp [newChapterId], by simp [newTopicId]⟩
    | some hIdx =>
      simp only [hr, hfind]
      refine ⟨?_, ?_, ?_⟩
      · exact listModify_forall
          (fun c => { c with topics := c.topics ++
            [{ idKey := some id, summary := summary, startTime := some s,
               endTime := some e, chunks := chunks }] })
          (fun c => c.idKey ≠ none) (fun x hx => hx) cs hIdx hk
      · have heq := listModify_filterMap
          (fun c => { c with topics := c.topics ++
            [{ idKey := some id, summary := summary, startTime := some s,
               endTime := some e, chunks := chunks }] })
          (·.idKey) (fun _ => rfl) cs hIdx
        intro b hb
        simp only [chapterIds] at hb ⊢
        rw [heq] at hb
        exact List.mem_append_left _ hb
      · have hsub := listModify_flatMap_extra
          (fun c => { c with topics := c.topics ++
            [{ idKey := some id, summary := summary, startTime := some s,
               endTime := some e, chunks := chunks }] })
          topicIdsOf [id]
          (fun x => by
            simp only [topicIdsOf, List.filterMap_append, List.filterMap_cons,
              List.filterMap_nil]
            exact List.Subset.refl _)
          cs hIdx
        intro b hb
        simpa only [topicIds, newTopicId, Option.toList_some] using hsub hb
  | updateTopic id summary s e chunks =>
    simp only [applyAction]
    cases hl : dictLookup m id with
    | none =>
      exact ⟨hk, by simp [newChapterId], by simp [newTopicId]⟩
    | some p =>
      obtain ⟨hIdx, tIdx⟩ := p
      simp only
      refine ⟨?_, ?_, ?_⟩
      · exact listModify_forall
          (fun c => { c with
            topics := listModify c.topics tIdx (patchTopic summary s e chunks) })
          (fun c => c.idKey ≠ none) (fun x hx => hx) cs hIdx hk
      · have heq := listModify_filterMap
          (fun c => { c with
            topics := listModify c.topics tIdx (patchTopic summary s e chunks) })
          (·.idKey) (fun _ => rfl) cs hIdx
        intro b hb
        simp only [chapterIds] at hb ⊢
        rw [heq] at hb
        exact List.mem_append_left _ hb
      · have heq := listModify_flatMap_eq
          (fun c => { c with
            topics := listModify c.topics tIdx (patchTopic summary s e chunks) })
          topicIdsOf
          (fun x => by
            simp only [topicIdsOf]
            exact listModify_filterMap _ (·.idKey)
              (fun t => patchTopic_idKey summary s e chunks t) x.topics tIdx)
          cs hIdx
        intro b hb
        simp only [topicIds] at hb ⊢
        rw [heq] at hb
        exact List.mem_append_left _ hb
  | unknown =>
    refine ⟨hk, ?_, ?_⟩
    · simp only [applyAction, newChapterId, Option.toList_none, List.append_nil]
      exact List.Subset.refl _
    · simp only [applyAction, newTopicId, Option.toList_none, List.append_nil]
      exact List.Subset.refl _

theorem foldl_ids_provenance :
    ∀ (acts : List FusionAction) (st : List Chapter × TopicMap),
      (∀ c ∈ st.1, c.idKey ≠ none) →
      (∀ c ∈ (acts.foldl applyAction st).1, c.idKey ≠ none) ∧
        chapterIds (acts.foldl applyAction st).1 ⊆
          chapterIds st.1 ++ acts.filterMap newChapterId ∧
        topicIds (acts.foldl applyAction st).1 ⊆
          topicIds st.1 ++ acts.filterMap newTopicId
  | [], st, hk => ⟨hk, by simp, by simp⟩
  | a :: rest, st, hk => by
    have h1 := applyAction_ids_provenance st a hk
    have h2 := foldl_ids_provenance rest (applyAction st a) h1.1
    refine ⟨h2.1, ?_, ?_⟩
    · intro b hb
      rcases List.mem_append.mp (h2.2.1 hb) with hb | hb
      · rcases List.mem_append.mp (h1.2.1 hb) with hb | hb
        · exact List.mem_append_left _ hb
        · refine List.mem_append_right _ ?_
          simp only [List.filterMap_cons]
          cases ha : newChapterId a with
          | none => simp [ha] at hb
          | some x =>
            simp only [ha, Option.toList_some, List.mem_singleton] at hb
            simp [ha, hb]
      · refine List.mem_append_right _ ?_
        simp only [List.filterMap_cons]
        cases ha : newChapterId a <;> simp [ha, hb]
    · intro b hb
      rcases List.mem_append.mp (h2.2.2 hb) with hb | hb
      · rcases List.mem_append.mp (h1.2.2 hb) with hb | hb
        · exact List.mem_append_left _ hb
        · refine List.mem_append_right _ ?_
          simp only [List.filterMap_cons]
          cases ha : newTopicId a with
          | none => simp [ha] at hb
          | some x =>
            simp only [ha, Option.toList_some, List.mem_singleton] at hb
            simp [ha, hb]
      · refine List.mem_append_right _ ?_
        simp only [List.filterMap_cons]
        cases ha : newTopicId a <;> simp [ha, hb]

/-- **C4.**  If chunk `c > 0` has no stored entry for chunk `c - 1` (for
example because the previous chunk's merge was skipped after a parse
failure), `_process_incremental_updates` builds the result for `c` from an
empty chapter list instead of the latest stored result: the produced
structure is exactly the one obtained by applying the chunk's own actions
to `[]`, and every chapter (resp. topic) id present in it comes from a
`new_chapter` (resp. `new_topic`) action of this very chunk — every
previously accumulated chapter and topic is absent unless this chunk's
actions reintroduce its id. -/
theorem merge_restart_on_missing_prev (results : ResultsMap)
    (inc : IncrementalResult) (chunkId : ℕ) (startT endT : ℚ)
    (ttext : String) (tsent : List Sentence) (h0 : 0 < chunkId)
    (hmiss : resultsLookup results (chunkId - 1) = none) :
    (processIncrementalUpdates results inc chunkId startT endT ttext
        tsent).chapters = processActions [] (inc.actions.getD []) ∧
    (∀ cid ∈ chapterIds (processActions [] (inc.actions.getD [])),
        cid ∈ (inc.actions.getD []).filterMap newChapterId) ∧
    (∀ tid ∈ topicIds (processActions [] (inc.actions.getD [])),
        tid ∈ (inc.actions.getD []).filterMap newTopicId) := by
  have hstep : (processIncrementalUpdates results inc chunkId startT endT
      ttext tsent).chapters = processActions [] (inc.actions.getD []) := by
    simp only [processIncrementalUpdates, if_pos h0, hmiss]
  have hfold := foldl_ids_provenance (inc.actions.getD []) ([], [])
    (by simp)
  refine ⟨hstep, fun cid hc => ?_, fun tid ht => ?_⟩
  · have := hfold.2.1 hc
    simpa [chapterIds] using this
  · have := hfold.2.2 ht
    simpa [topicIds] using this

/-- Witness for `merge_restart_on_missing_prev`: chunk 1 with no entry for
chunk 0 rebuilds from scratch. -/
theorem merge_restart_on_missing_prev_witness :
    (processIncrementalUpdates [] ⟨some [.newChapter (some "h9") none 0], none⟩
        1 20 40 "" []).chapters
      = processActions [] [.newChapter (some "h9") none 0] :=
  (merge_restart_on_missing_prev [] ⟨some [.newChapter (some "h9") none 0], none⟩
    1 20 40 "" [] one_pos rfl).1

/-! ## FusionAnalyzer: continuity validation
(`_detect_overlapping_topics`)

The routine only reads the merged structure and emits log lines; it performs
no field assignment anywhere, so its embedding is a pure function from the
analysis result to the list of warnings it logs.  Each warning records the
data the log line carries: the chunk, the chapter position, the position of
the adjacent pair in the start-time-sorted topic list, both boundary times
and the overlap duration `current.end_time - next.start_time`. -/

structure OverlapWarning where
  chunkId : ℕ
  chapterIdx : ℕ
  pairIdx : ℕ
  currentEnd : ℚ
  nextStart : ℚ
  overlapDuration : ℚ
deriving DecidableEq, Repr

/-- `sorted(topics, key=lambda t: t.get('start_time', 0))` — a stable sort
by start time (Python's `sorted` and `List.mergeSort` are both stable). -/
def sortTopicsByStart (ts : List Topic) : List Topic :=
  ts.mergeSort (fun a b => decide (a.startTime.getD 0 ≤ b.startTime.getD 0))

/-- The `for i in range(len(topics_sorted) - 1)` loop over adjacent pairs,
`i` carrying the running index. -/
def adjacentOverlaps (chunkId chIdx : ℕ) : ℕ → List Topic → List OverlapWarning
  | _, [] => []
  | _, [_] => []
  | i, a :: b :: rest =>
    let ce := a.endTime.getD 0
    let ns := b.startTime.getD 0
    (if ns < ce then [⟨chunkId, chIdx, i, ce, ns, ce - ns⟩] else [])
      ++ adjacentOverlaps chunkId chIdx (i + 1) (b :: rest)

/-- `_detect_overlapping_topics` (the warnings it logs, in order; chapters
with at most one topic are skipped by the `continue`). -/
def detectOverlappingTopics (r : AnalysisResult) (chunkId : ℕ) :
    List OverlapWarning :=
  r.chapters.enum.flatMap (fun p =>
    if p.2.topics.length ≤ 1 then []
    else adjacentOverlaps chunkId p.1 0 (sortTopicsByStart p.2.topics))

/-- The specification's description of the same scan: for every chapter,
pair the start-time-sorted topic list with its own tail and keep exactly
the adjacent pairs with `current.end_time > next.start_time`, reporting the
precise overlap duration. -/
def specOverlapWarnings (r : AnalysisResult) (chunkId : ℕ) :
    List OverlapWarning :=
  r.chapters.enum.flatMap (fun p =>
    let s := sortTopicsByStart p.2.topics
    ((s.zip s.tail).enum).filterMap (fun q =>
      if q.2.2.startTime.getD 0 < q.2.1.endTime.getD 0 then
        some ⟨chunkId, p.1, q.1, q.2.1.endTime.getD 0, q.2.2.startTime.getD 0,
          q.2.1.endTime.getD 0 - q.2.2.startTime.getD 0⟩
      else none))

theorem adjacentOverlaps_eq_enumFrom (chunkId chIdx : ℕ) :
    ∀ (ts : List Topic) (i : ℕ),
      adjacentOverlaps chunkId chIdx i ts
        = ((ts.zip ts.tail).enumFrom i).filterMap (fun q =>
            if q.2.2.startTime.getD 0 < q.2.1.endTime.getD 0 then
              some ⟨chunkId, chIdx, q.1, q.2.1.endTime.getD 0,
                q.2.2.startTime.getD 0,
                q.2.1.endTime.getD 0 - q.2.2.startTime.getD 0⟩
            else none)
  | [], _ => rfl
  | [_], _ => rfl
  | a :: b :: rest, i => by
    simp only [adjacentOverlaps, List.zip_cons_cons, List.tail_cons,
      List.enumFrom, List.filterMap_cons]
    rw [adjacentOverlaps_eq_enumFrom chunkId chIdx (b :: rest) (i + 1)]
    split
    · simp [List.zip]
    · simp [List.zip]

/-- **C5.**  Continuity validation is detect-and-report only: the warnings
logged by `_detect_overlapping_topics` are exactly those adjacent pairs of
topics, sorted by start time within each chapter, whose current topic ends
after the next one starts, each reported with the precise overlap duration
`current.end_time - next.start_time`.  The routine computes this list and
nothing else — it assigns no chapter or topic field (its embedding is a
pure function of the merged result; the merge output stored for the chunk
is produced before the scan and is not an input of it). -/
theorem detect_overlaps_characterisation (r : AnalysisResult) (c : ℕ) :
    detectOverlappingTopics r c = specOverlapWarnings r c ∧
      ∀ w ∈ detectOverlappingTopics r c,
        w.nextStart < w.currentEnd ∧
          w.overlapDuration = w.currentEnd - w.nextStart := by
  have hmain : detectOverlappingTopics r c = specOverlapWarnings r c := by
    unfold detectOverlappingTopics specOverlapWarnings
    refine congrArg _ (funext fun p => ?_)
    split
    · rename_i hlen
      have hs : (sortTopicsByStart p.2.topics).length ≤ 1 := by
        simpa [sortTopicsByStart, List.length_mergeSort] using hlen
      match hm : sortTopicsByStart p.2.topics, hs with
      | [], _ => rfl
      | [t], _ => rfl
    · exact adjacentOverlaps_eq_enumFrom c p.1 (sortTopicsByStart p.2.topics) 0
  refine ⟨hmain, fun w hw => ?_⟩
  rw [hmain] at hw
  unfold specOverlapWarnings at hw
  rcases List.mem_flatMap.mp hw with ⟨p, _, hp⟩
  rcases List.mem_filterMap.mp hp with ⟨q, _, hq⟩
  by_cases hcond : q.2.2.startTime.getD 0 < q.2.1.endTime.getD 0
  · rw [if_pos hcond] at hq
    cases hq
    exact ⟨hcond, rfl⟩
  · rw [if_neg hcond] at hq
    cases hq

/-! ## FusionAnalyzer: conversation history and context windowing
(`_cleanup_old_messages`, `update_finalized_chapters`)

A conversation message is a dict with a `role` and a `content` list of
blocks; the cleanup reads the text of the first block whose `type` is
`"text"` (defaulting to `""`).  A user message is kept exactly when the
canonical chunk identifier `f"chunk_{chunk_id:04d}"` of some retained chunk
occurs in that text (Python's `in` substring test). -/

structure ContentBlock where
  ctype : String
  text : String
deriving DecidableEq, Repr

structure Message where
  role : String
  content : List ContentBlock
deriving DecidableEq, Repr

/-- `next((c.get('text', '') for c in content if c.get('type') == 'text'), '')` -/
def textContent (m : Message) : String :=
  match m.content.find? (fun c => c.ctype == "text") with
  | some c => c.text
  | none => ""

/-- `f"{n:04d}"` for a natural: decimal, zero-padded to at least width 4. -/
def padZeros4 (n : ℕ) : String :=
  let s := toString n
  if s.length < 4 then String.mk (List.replicate (4 - s.length) '0') ++ s else s

/-- `f"chunk_{chunk_id:04d}"` -/
def chunkIdentifier (c : ℕ) : String := "chunk_" ++ padZeros4 c

/-- Python's `needle in haystack` on strings: substring containment. -/
def containsStr (haystack needle : String) : Bool :=
  decide (needle.data <:+: haystack.data)

/-- The retained chunk ids: every chunk listed by every topic of the given
chapters (`chunks_to_keep`; only membership is ever used, so a list stands
in for the Python set). -/
def chunksOfChapters (cs : List Chapter) : List ℕ :=
  cs.flatMap (fun c => c.topics.flatMap (·.chunks))

/-- The per-user-message retention test of the cleanup loop. -/
def matchesKeep (keep : List ℕ) (m : Message) : Bool :=
  keep.any (fun c => containsStr (textContent m) (chunkIdentifier c))

/-- The message-filtering `while` loop of `_cleanup_old_messages`: a kept
user message takes its immediately following assistant response along; a
dropped user message drops it too; user messages with an empty content
list, and assistant messages not directly preceded by a kept user message,
are skipped one at a time. -/
def cleanLoop (keep : Message → Bool) : List Message → List Message
  | [] => []
  | [msg] =>
    if msg.role = "user" then
      if msg.content.isEmpty then []
      else if keep msg then [msg] else []
    else []
  | msg :: m2 :: rest =>
    if msg.role = "user" then
      if msg.content.isEmpty then cleanLoop keep (m2 :: rest)
      else if keep msg then
        if m2.role = "assistant" then msg :: m2 :: cleanLoop keep rest
        else msg :: cleanLoop keep (m2 :: rest)
      else
        if m2.role = "assistant" then cleanLoop keep rest
        else cleanLoop keep (m2 :: rest)
    else cleanLoop keep (m2 :: rest)

/-- `_cleanup_old_messages(all_chapters)`: no-op when `keep_n_chapters` is
`None` or when at most `keep_n_chapters + 1` chapters exist; otherwise keep
only the message pairs referencing a chunk of the last
`keep_n_chapters + 1` chapters (`all_chapters[-(k+1):]`). -/
def cleanupOldMessages (keepN : Option ℕ) (allCh : List Chapter)
    (msgs : List Message) : List Message :=
  match keepN with
  | none => msgs
  | some k =>
    if allCh.length ≤ k + 1 then msgs
    else
      cleanLoop
        (matchesKeep (chunksOfChapters (allCh.drop (allCh.length - (k + 1)))))
        msgs

/-- The shape the claim requires of the surviving history: every element is
either a user message passing the retention test, or an assistant message
immediately preceded by such a kept user message (a pair kept together). -/
inductive PairedKeep (keep : Message → Bool) : List Message → Prop where
  | nil : PairedKeep keep []
  | pair {u a : Message} {rest : List Message} :
      u.role = "user" → keep u = true → a.role = "assistant" →
      PairedKeep keep rest → PairedKeep keep (u :: a :: rest)
  | lone {u : Message} {rest : List Message} :
      u.role = "user" → keep u = true →
      PairedKeep keep rest → PairedKeep keep (u :: rest)

theorem cleanLoop_paired (keep : Message → Bool) :
    ∀ msgs : List Message, PairedKeep keep (cleanLoop keep msgs)
  | [] => PairedKeep.nil
  | [msg] => by
    simp only [cleanLoop]
    split
    · split
      · exact PairedKeep.nil
      · split
        · rename_i hrole _ hkeep
          exact PairedKeep.lone hrole hkeep PairedKeep.nil
        · exact PairedKeep.nil
    · exact PairedKeep.nil
  | msg :: m2 :: rest => by
    simp only [cleanLoop]
    split
    · rename_i hrole
      split
      · exact cleanLoop_paired keep (m2 :: rest)
      · split
        · rename_i hkeep
          split
          · rename_i hasst
            exact PairedKeep.pair hrole hkeep hasst (cleanLoop_paired keep rest)
          · exact PairedKeep.lone hrole hkeep (cleanLoop_paired keep (m2 :: rest))
        · split
          · exact cleanLoop_paired keep rest
          · exact cleanLoop_paired keep (m2 :: rest)
    · exact cleanLoop_paired keep (m2 :: rest)

/-- `sorted(self.analysis_results.items(), ...)[-1][1]`: the stored result
with the largest chunk id (`none` iff the dict is empty, the
`if not self.analysis_results` early return). -/
def latestResult (m : ResultsMap) : Option AnalysisResult :=
  ((m.mergeSort (fun a b => decide (a.1 ≤ b.1))).getLast?).map (·.2)

/-- The mutable analyzer state touched by the logic under verification.
Clip extraction and table rendering are external effects; the token/usage
counters are bookkeeping not read by any of the verified paths. -/
structure FusionState where
  messages : List Message
  analysisResults : ResultsMap
  keepNChapters : Option ℕ
  finalizedChapters : List Chapter
  allChaptersForDisplay : List Chapter
  /-- parse-failure log entries `(chunk_id, raw content)` -/
  errorLog : List (ℕ × String)
  /-- warnings emitted by `_detect_overlapping_topics` -/
  overlapLog : List OverlapWarning

/-- `update_finalized_chapters`: refresh the display list, mark all but the
last chapter finalized (clip extraction is an external effect), and prune
the conversation history — the cleanup runs only when more than one chapter
exists. -/
def updateFinalizedChapters (s : FusionState) : FusionState :=
  match latestResult s.analysisResults with
  | none => s
  | some latest =>
    let allCh := latest.chapters
    if 1 ≤ allCh.length then
      let s1 := { s with allChaptersForDisplay := allCh }
      if 1 < allCh.length then
        let finalized := allCh.dropLast
        let s2 :=
          if s1.finalizedChapters.length < finalized.length then
            { s1 with finalizedChapters := finalized }
          else s1
        { s2 with messages := cleanupOldMessages s2.keepNChapters allCh s2.messages }
      else s1
    else s

/-- **C2.**  Context windowing: when `keep_n_chapters = k` and the latest
cumulative structure spans `m > k + 1` chapters, the conversation history
after `update_finalized_chapters` consists only of message pairs whose user
text references a chunk id belonging to some topic of the last `k + 1`
chapters, each (user, assistant) pair removed or kept together; when
`keep_n_chapters` is `None`, the cleanup leaves the conversation history
unchanged. -/
theorem fusion_context_windowing (s : FusionState) :
    (∀ latest k, latestResult s.analysisResults = some latest →
        s.keepNChapters = some k → k + 1 < latest.chapters.length →
        PairedKeep
          (matchesKeep (chunksOfChapters
            (latest.chapters.drop (latest.chapters.length - (k + 1)))))
          (updateFinalizedChapters s).messages) ∧
    (s.keepNChapters = none →
      (updateFinalizedChapters s).messages = s.messages) := by
  constructor
  · intro latest k hl hk hm
    have h1 : 1 ≤ latest.chapters.length := le_trans (Nat.le_add_left 1 k) (le_of_lt hm)
    have h2 : 1 < latest.chapters.length := lt_of_le_of_lt (Nat.le_add_left 1 k) hm
    simp only [updateFinalizedChapters, hl, if_pos h1, if_pos h2]
    split <;>
    · simp only [cleanupOldMessages, hk, if_neg (not_le.mpr hm)]
      exact cleanLoop_paired _ s.messages
  · intro hk
    simp only [updateFinalizedChapters]
    cases hl : latestResult s.analysisResults with
    | none => rfl
    | some latest =>
      simp only
      split
      · split
        · split <;> simp [cleanupOldMessages, hk]
        · rfl
      · rfl

/-- A two-chapter analysis result used to exercise the windowing theorem. -/
def sampleLatestW : AnalysisResult :=
  { chapters :=
      [⟨some (some "h1"), none, 0, [⟨some (some "t1"), none, some 0, some 20, [0]⟩]⟩,
       ⟨some (some "h2"), none, 0, [⟨some (some "t2"), none, some 20, some 40, [1]⟩]⟩]
    chunkId := 1, startTime := 20, endTime := 40, transcript := ""
    transcriptSentences := [], analysisStatus := none }

/-- An analyzer state with `keep_n_chapters = 0`, a four-message history,
and `sampleLatestW` as its only stored result. -/
def sampleStateW : FusionState :=
  { messages :=
      [⟨"user", [⟨"text", "Chunk identifier: chunk_0000."⟩]⟩,
       ⟨"assistant", [⟨"text", "ok"⟩]⟩,
       ⟨"user", [⟨"text", "Chunk identifier: chunk_0001."⟩]⟩,
       ⟨"assistant", [⟨"text", "ok"⟩]⟩]
    analysisResults := [(1, sampleLatestW)]
    keepNChapters := some 0, finalizedChapters := []
    allChaptersForDisplay := [], errorLog := [], overlapLog := [] }

/-- Witness for `fusion_context_windowing`: `k = 0`, two chapters in the
latest result, so only the pair referencing the last chapter's chunk may
survive. -/
theorem fusion_context_windowing_witness :
    PairedKeep
      (matchesKeep (chunksOfChapters
        (sampleLatestW.chapters.drop (sampleLatestW.chapters.length - (0 + 1)))))
      (updateFinalizedChapters sampleStateW).messages :=
  (fusion_context_windowing sampleStateW).1 sampleLatestW 0
    (by simp [latestResult, sampleStateW]) rfl (by decide)

/-! ## FusionAnalyzer: response parsing and merge storage
(`_perform_fusion_analysis`, lines 673–702)

The code extracts the fenced block with
`re.search(r'```json\s*(.*?)\s*```', content, re.DOTALL)` and **raises**
`JSONDecodeError` when there is no match; only the fenced group (after
`.strip()`) is ever handed to `json.loads`.  Because `"```json"` itself
contains `"```"`, the regex matches exactly when the first occurrence of
`"```json"` is followed somewhere by `"```"`, and the stripped group is the
text between that occurrence and the next `"```"`, trimmed — which is what
`stripJsonFence` computes.  `json.loads` belongs to the Python standard
library; it is a parameter `jsonLoads` of the step, `none` standing for a
`JSONDecodeError`. -/

/-- The characters after the first occurrence of `needle`, if any. -/
def afterFirst (needle : List Char) : List Char → Option (List Char)
  | [] => if needle.isEmpty then some [] else none
  | c :: rest =>
    if needle.isPrefixOf (c :: rest) then some ((c :: rest).drop needle.length)
    else afterFirst needle rest

/-- The characters before the first occurrence of `needle`, if any. -/
def beforeFirst (needle : List Char) : List Char → Option (List Char)
  | [] => if needle.isEmpty then some [] else none
  | c :: rest =>
    if needle.isPrefixOf (c :: rest) then some []
    else (beforeFirst needle rest).map (c :: ·)

/-- `str.strip()` on the matched group (the regex's surrounding `\s*` and
the subsequent `.strip()` both reduce to trimming whitespace from the two
ends). -/
def trimChars (l : List Char) : List Char :=
  ((l.dropWhile Char.isWhitespace).reverse.dropWhile Char.isWhitespace).reverse

/-- The fence-stripping step: `none` when the regex finds no
` ```json … ``` ` block (the code then raises and the chunk is skipped),
otherwise the trimmed text between the first `"```json"` and the next
`"```"`. -/
def stripJsonFence (content : String) : Option String :=
  match afterFirst "```json".data content.data with
  | none => none
  | some rest =>
    match beforeFirst "```".data rest with
    | none => none
    | some inner => some (String.mk (trimChars inner))

/-- The parse-and-store tail of `_perform_fusion_analysis` (after the model
response text has been received and appended to the conversation): strip
the fence, parse, merge, validate continuity, store the result, and update
finalized chapters.  On a parse failure (no fence, or `json.loads` fails)
the offending raw content is logged and the merge is skipped — note the
code logs the original `content` when no fence was found and the stripped
group when `json.loads` failed, because `content` is reassigned in
between. -/
def handleModelResponse (jsonLoads : String → Option IncrementalResult)
    (s : FusionState) (chunkId : ℕ) (startT endT : ℚ) (ttext : String)
    (tsent : List Sentence) (content : String) : FusionState :=
  match stripJsonFence content with
  | none => { s with errorLog := s.errorLog ++ [(chunkId, content)] }
  | some inner =>
    match jsonLoads inner with
    | none => { s with errorLog := s.errorLog ++ [(chunkId, inner)] }
    | some inc =>
      let result := processIncrementalUpdates s.analysisResults inc chunkId
        startT endT ttext tsent
      let warnings := detectOverlappingTopics result chunkId
      updateFinalizedChapters
        { s with
          analysisResults := resultsInsert s.analysisResults chunkId result
          overlapLog := s.overlapLog ++ warnings }

theorem updateFinalizedChapters_analysisResults (s : FusionState) :
    (updateFinalizedChapters s).analysisResults = s.analysisResults := by
  unfold updateFinalizedChapters
  cases latestResult s.analysisResults with
  | none => rfl
  | some latest =>
    simp only
    split
    · split
      · split <;> rfl
      · rfl
    · rfl

theorem resultsLookup_insert :
    ∀ (m : ResultsMap) (k : ℕ) (v : AnalysisResult),
      resultsLookup (resultsInsert m k v) k = some v
  | [], _, _ => by simp [resultsInsert, resultsLookup]
  | e :: rest, k, v => by
    by_cases h : e.1 = k
    · simp [resultsInsert, resultsLookup, h]
    · simp only [resultsInsert, if_neg h, resultsLookup, if_neg h]
      exact resultsLookup_insert rest k v

theorem resultsLookup_insert_ne :
    ∀ (m : ResultsMap) (k k' : ℕ) (v : AnalysisResult), k' ≠ k →
      resultsLookup (resultsInsert m k v) k' = resultsLookup m k'
  | [], k, k', _, h => by
    have h1 : ¬ k = k' := fun hk => h hk.symm
    simp [resultsInsert, resultsLookup, h1]
  | e :: rest, k, k', v, h => by
    by_cases he : e.1 = k
    · have h1 : ¬ k = k' := fun hk => h hk.symm
      have h2 : ¬ e.1 = k' := fun hk => h1 (he.symm.trans hk)
      simp [resultsInsert, resultsLookup, he, h1, h2]
    · simp only [resultsInsert, if_neg he, resultsLookup]
      split
      · rfl
      · exact resultsLookup_insert_ne rest k k' v h

/-- A `json.loads` oracle that parses the bare (unfenced) response
`{"actions": []}` successfully — exhibiting that the code never even asks
it: the fence check fails first. -/
def jsonLoadsBare : String → Option IncrementalResult :=
  fun t => if t = "\x7b\"actions\": []\x7d" then some ⟨some [], none⟩ else none

/-- An analyzer state as constructed (`keep_n_chapters` defaults to 1). -/
def initFusionState : FusionState :=
  { messages := [], analysisResults := [], keepNChapters := some 1,
    finalizedChapters := [], allChaptersForDisplay := [], errorLog := [],
    overlapLog := [] }

/-- **C3 counterexample.**  A model response that is exactly the valid JSON
object `{"actions": []}` with no fenced code block is *not* parsed and
merged: even with a `json.loads` that parses it, the analyzer stores no
entry for the chunk and logs the raw content as a parse failure.  This
refutes the claim's "whether or not it is wrapped in a fenced code
block". -/
theorem parse_requires_fence_counterexample :
    jsonLoadsBare "\x7b\"actions\": []\x7d" = some ⟨some [], none⟩ ∧
      resultsLookup
        (handleModelResponse jsonLoadsBare initFusionState 0 0 20 "" []
          "\x7b\"actions\": []\x7d").analysisResults 0 = none ∧
      (handleModelResponse jsonLoadsBare initFusionState 0 0 20 "" []
          "\x7b\"actions\": []\x7d").errorLog
        = [(0, "\x7b\"actions\": []\x7d")] := by
  refine ⟨rfl, ?_, ?_⟩ <;> rfl

/-- **C3 (amended).**  Parse-failure handling: when the response contains
no ` ```json … ``` ` fenced block the raw content is logged and the
chunk's merge is skipped — `analysis_results` is left exactly as it was, so
the previous chunk's snapshot is preserved and no entry is stored for the
failed chunk.  The same holds when the fenced text fails to parse.  When
the response does contain a fenced block whose stripped contents parse as
the JSON `{"actions": [...]}` object, it is parsed and the merge result is
stored for the chunk.  (Contrary to the original claim, a bare unfenced
JSON object is treated as a parse failure, not parsed.) -/
theorem parse_failure_skips_merge (jsonLoads : String → Option IncrementalResult)
    (s : FusionState) (chunkId : ℕ) (startT endT : ℚ) (ttext : String)
    (tsent : List Sentence) (content : String) :
    (stripJsonFence content = none →
      (handleModelResponse jsonLoads s chunkId startT endT ttext tsent
          content).analysisResults = s.analysisResults ∧
      (handleModelResponse jsonLoads s chunkId startT endT ttext tsent
          content).errorLog = s.errorLog ++ [(chunkId, content)]) ∧
    (∀ inner, stripJsonFence content = some inner → jsonLoads inner = none →
      (handleModelResponse jsonLoads s chunkId startT endT ttext tsent
          content).analysisResults = s.analysisResults ∧
      (handleModelResponse jsonLoads s chunkId startT endT ttext tsent
          content).errorLog = s.errorLog ++ [(chunkId, inner)]) ∧
    (∀ inner inc, stripJsonFence content = some inner →
      jsonLoads inner = some inc →
      resultsLookup (handleModelResponse jsonLoads s chunkId startT endT ttext
          tsent content).analysisResults chunkId
        = some (processIncrementalUpdates s.analysisResults inc chunkId startT
            endT ttext tsent) ∧
      ∀ c, c ≠ chunkId →
        resultsLookup (handleModelResponse jsonLoads s chunkId startT endT
            ttext tsent content).analysisResults c
          = resultsLookup s.analysisResults c) := by
  refine ⟨fun hnone => ?_, fun inner hsome hfail => ?_, fun inner inc hsome hok => ?_⟩
  · simp [handleModelResponse, hnone]
  · simp [handleModelResponse, hsome, hfail]
  · simp only [handleModelResponse, hsome, hok,
      updateFinalizedChapters_analysisResults]
    exact ⟨resultsLookup_insert _ _ _,
      fun c hc => resultsLookup_insert_ne _ _ _ _ hc⟩

/-- Witness for `parse_failure_skips_merge`: a fenced response is parsed
and its merge result stored. -/
theorem parse_failure_skips_merge_witness :
    resultsLookup
      (handleModelResponse jsonLoadsBare initFusionState 0 0 20 "" []
        "```json\n\x7b\"actions\": []\x7d\n```").analysisResults 0
      = some (processIncrementalUpdates [] ⟨some [], none⟩ 0 0 20 "" []) :=
  ((parse_failure_skips_merge jsonLoadsBare initFusionState 0 0 20 "" []
      "```json\n\x7b\"actions\": []\x7d\n```").2.2
    "\x7b\"actions\": []\x7d" ⟨some [], none⟩ rfl rfl).1

/-! ## AdaptiveFilmstripProcessor.calculate_optimal_layout
(`src/shared/filmstrip_processor.py`)

Integer arithmetic is exact (`ℤ`, `pyFloorDiv` for `//`, `ratTrunc` for
`int(...)`); float quantities (`aspect_ratio`, durations) are exact
rationals.  The optional `_apply_file_size_constraint` path computes a
floating-point square root (`(target/current) ** 0.5`), which has no exact
rational embedding; it is therefore a parameter `afsc` of the definitions —
it is only invoked when `max_file_size_mb` is set, and the theorems below
that assume `max_file_size_mb = None` are independent of it.  Rational
division by zero is total in Lean (`x / 0 = 0`) where Python would raise
`ZeroDivisionError`; the positivity hypotheses of the theorems keep the
modelled runs away from those inputs. -/

structure AdaptiveConfig where
  maxGridWidth : ℤ
  maxGridHeight : ℤ
  maxGridImages : ℤ
  borderThickness : ℤ
  labelHeight : ℤ
  preserveSourceResolution : Bool
  fixedGridLayout : Option (ℤ × ℤ)
  maxFileSizeMb : Option ℚ

/-- The aspect-ratio adjustment: shrink one cell dimension so that
`cell_width / cell_height` matches the source aspect ratio
(`int()` truncates). -/
def adjustAspect (aspectRatio : ℚ) (cw ch : ℤ) : ℤ × ℤ :=
  if aspectRatio < (cw : ℚ) / (ch : ℚ) then
    (ratTrunc ((ch : ℚ) * aspectRatio), ch)
  else
    (cw, ratTrunc ((cw : ℚ) / aspectRatio))

/-- One iteration of the `for rows … for cols …` search in
`_calculate_grid_dimensions`: skip layouts whose raw cells are under 100 px,
adjust for aspect ratio, verify the fit, and keep the layout maximising
`rows * cols` (strictly, so the first best in row-major order wins). -/
def searchStep (cfg : AdaptiveConfig) (aspectRatio : ℚ)
    (acc : ℤ × Option (ℤ × ℤ × ℤ × ℤ)) (rc : ℤ × ℤ) :
    ℤ × Option (ℤ × ℤ × ℤ × ℤ) :=
  let rows := rc.1
  let cols := rc.2
  let availW := cfg.maxGridWidth - (cols + 1) * cfg.borderThickness
  let availH := cfg.maxGridHeight - (rows + 1) * cfg.borderThickness
    - rows * cfg.labelHeight
  let cw0 := pyFloorDiv availW cols
  let ch0 := pyFloorDiv availH rows
  if cw0 < 100 ∨ ch0 < 100 then acc
  else
    let p := adjustAspect aspectRatio cw0 ch0
    let totalW := cols * p.1 + (cols + 1) * cfg.borderThickness
    let totalH := rows * (p.2 + cfg.labelHeight) + (rows + 1) * cfg.borderThickness
    if totalW ≤ cfg.maxGridWidth ∧ totalH ≤ cfg.maxGridHeight then
      if acc.1 < rows * cols then (rows * cols, some (p.1, p.2, rows, cols))
      else acc
    else acc

/-- `range(1, 21) × range(1, 21)` in row-major order. -/
def searchPairs : List (ℤ × ℤ) :=
  (List.range 20).flatMap
    (fun r => (List.range 20).map (fun c => (((r + 1 : ℕ) : ℤ), ((c + 1 : ℕ) : ℤ))))

/-- `_calculate_grid_dimensions`, returning
`(cell_width, cell_height, grid_rows, grid_cols)`. -/
def calculateGridDimensions (afsc : ℤ → ℤ → ℤ → ℤ → ℚ → ℤ × ℤ)
    (cfg : AdaptiveConfig) (aspectRatio : ℚ) (srcW srcH : ℤ) :
    ℤ × ℤ × ℤ × ℤ :=
  match cfg.fixedGridLayout with
  | some (fixedRows, fixedCols) =>
    let p :=
      if cfg.preserveSourceResolution then (srcW, srcH)
      else
        let availW := cfg.maxGridWidth - (fixedCols + 1) * cfg.borderThickness
        let availH := cfg.maxGridHeight - (fixedRows + 1) * cfg.borderThickness
          - fixedRows * cfg.labelHeight
        adjustAspect aspectRatio (pyFloorDiv availW fixedCols)
          (pyFloorDiv availH fixedRows)
    let totalW := fixedCols * p.1 + (fixedCols + 1) * cfg.borderThickness
    let totalH := fixedRows * (p.2 + cfg.labelHeight)
      + (fixedRows + 1) * cfg.borderThickness
    if cfg.maxGridWidth < totalW ∨ cfg.maxGridHeight < totalH then
      (512, 512, 4, 5)
    else
      match cfg.maxFileSizeMb with
      | some _ =>
        let q := afsc p.1 p.2 fixedRows fixedCols aspectRatio
        (q.1, q.2, fixedRows, fixedCols)
      | none => (p.1, p.2, fixedRows, fixedCols)
  | none =>
    if cfg.preserveSourceResolution then
      let maxCols := pyFloorDiv (cfg.maxGridWidth - cfg.borderThickness)
        (srcW + cfg.borderThickness)
      let maxRows := pyFloorDiv (cfg.maxGridHeight - cfg.borderThickness)
        (srcH + cfg.labelHeight + cfg.borderThickness)
      if maxCols < 1 ∨ maxRows < 1 then (512, 512, 4, 5)
      else
        match cfg.maxFileSizeMb with
        | some _ =>
          let q := afsc srcW srcH maxRows maxCols aspectRatio
          (q.1, q.2, maxRows, maxCols)
        | none => (srcW, srcH, maxRows, maxCols)
    else
      match (searchPairs.foldl (searchStep cfg aspectRatio) (0, none)).2 with
      | none => (512, 512, 4, 5)
      | some (cw, ch, rows, cols) =>
        match cfg.maxFileSizeMb with
        | some _ =>
          let q := afsc cw ch rows cols aspectRatio
          (q.1, q.2, rows, cols)
        | none => (cw, ch, rows, cols)

structure GridLayout where
  totalFrames : ℤ
  framesPerGrid : ℤ
  gridRows : ℤ
  gridCols : ℤ
  cellWidth : ℤ
  cellHeight : ℤ
  numGridsNeeded : ℤ
  samplingRate : ℤ
  framesToExtract : ℤ
  extractionInterval : ℚ
  maxFramesCapacity : ℤ
deriving DecidableEq, Repr

/-- `calculate_optimal_layout(video_duration, source_fps, source_resolution)`.
The two sampling branches both compute
`num_grids_needed = (frames_to_extract + frames_per_grid - 1) // frames_per_grid`. -/
def calculateOptimalLayout (afsc : ℤ → ℤ → ℤ → ℤ → ℚ → ℤ × ℤ)
    (cfg : AdaptiveConfig) (videoDuration sourceFps : ℚ) (srcW srcH : ℤ) :
    GridLayout :=
  let totalFrames := ratTrunc (videoDuration * sourceFps)
  let aspectRatio := (srcW : ℚ) / (srcH : ℚ)
  let g := calculateGridDimensions afsc cfg aspectRatio srcW srcH
  let fpg := g.2.2.1 * g.2.2.2
  let maxTotal := fpg * cfg.maxGridImages
  let sampling :=
    if totalFrames ≤ maxTotal then 1
    else pyFloorDiv (totalFrames + maxTotal - 1) maxTotal
  let fte :=
    if totalFrames ≤ maxTotal then totalFrames
    else pyFloorDiv (totalFrames + sampling - 1) sampling
  { totalFrames := totalFrames
    framesPerGrid := fpg
    gridRows := g.2.2.1
    gridCols := g.2.2.2
    cellWidth := g.1
    cellHeight := g.2.1
    numGridsNeeded := pyFloorDiv (fte + fpg - 1) fpg
    samplingRate := sampling
    framesToExtract := fte
    extractionInterval := if 0 < fte then videoDuration / (fte : ℚ) else 1
    maxFramesCapacity := maxTotal }

/-- A file-size scaler standing in for `_apply_file_size_constraint`; the
theorems below never reach it (`max_file_size_mb = None`). -/
def afscId : ℤ → ℤ → ℤ → ℤ → ℚ → ℤ × ℤ := fun cw ch _ _ _ => (cw, ch)

/-- `preserve_source_resolution = True` with a 2000×2000 source against a
500×500 grid bound: the source cell does not fit, so the code returns the
hard-coded fallback layout `(512, 512, 4, 5)`. -/
def cexLayoutConfig : AdaptiveConfig :=
  { maxGridWidth := 500, maxGridHeight := 500, maxGridImages := 20,
    borderThickness := 8, labelHeight := 40,
    preserveSourceResolution := true, fixedGridLayout := none,
    maxFileSizeMb := none }

def cexLayout : GridLayout :=
  calculateOptimalLayout afscId cexLayoutConfig 20 1 2000 2000

/-- **C9 counterexample.**  The claimed width bound
`grid_cols * cell_width + (grid_cols + 1) * border ≤ max_grid_width` fails:
when no layout fits, `_calculate_grid_dimensions` returns the hard-coded
fallback `(512, 512, 4, 5)`, whose width `5·512 + 6·8 = 2608` exceeds the
500-pixel bound. -/
theorem adaptive_layout_bounds_counterexample :
    ¬ (cexLayout.gridCols * cexLayout.cellWidth
        + (cexLayout.gridCols + 1) * cexLayoutConfig.borderThickness
          ≤ cexLayoutConfig.maxGridWidth) := by
  decide

/-- A layout that respects the configured grid bounds (with at least one
row and column). -/
def FitsLayout (cfg : AdaptiveConfig) (l : ℤ × ℤ × ℤ × ℤ) : Prop :=
  1 ≤ l.2.2.1 ∧ 1 ≤ l.2.2.2 ∧
    l.2.2.2 * l.1 + (l.2.2.2 + 1) * cfg.borderThickness ≤ cfg.maxGridWidth ∧
    l.2.2.1 * (l.2.1 + cfg.labelHeight) + (l.2.2.1 + 1) * cfg.borderThickness
      ≤ cfg.maxGridHeight

theorem searchStep_inv (cfg : AdaptiveConfig) (aspectRatio : ℚ)
    (acc : ℤ × Option (ℤ × ℤ × ℤ × ℤ)) (rc : ℤ × ℤ)
    (hrc : 1 ≤ rc.1 ∧ 1 ≤ rc.2)
    (hacc : ∀ l, acc.2 = some l → FitsLayout cfg l) :
    ∀ l, (searchStep cfg aspectRatio acc rc).2 = some l → FitsLayout cfg l := by
  intro l hl
  unfold searchStep at hl
  simp only at hl
  split at hl
  · exact hacc l hl
  · split at hl
    · rename_i hfit
      split at hl
      · simp only [Option.some.injEq] at hl
        subst hl
        exact ⟨hrc.1, hrc.2, hfit.1, hfit.2⟩
      · exact hacc l hl
    · exact hacc l hl

theorem searchFold_inv (cfg : AdaptiveConfig) (aspectRatio : ℚ) :
    ∀ (ps : List (ℤ × ℤ)) (acc : ℤ × Option (ℤ × ℤ × ℤ × ℤ)),
      (∀ rc ∈ ps, 1 ≤ rc.1 ∧ 1 ≤ rc.2) →
      (∀ l, acc.2 = some l → FitsLayout cfg l) →
      ∀ l, (ps.foldl (searchStep cfg aspectRatio) acc).2 = some l →
        FitsLayout cfg l
  | [], _, _, hacc => hacc
  | rc :: rest, acc, hps, hacc => by
    simp only [List.foldl_cons]
    exact searchFold_inv cfg aspectRatio rest _
      (fun q hq => hps q (List.mem_cons_of_mem rc hq))
      (searchStep_inv cfg aspectRatio acc rc (hps rc (List.mem_cons_self rc rest)) hacc)

theorem searchPairs_pos : ∀ rc ∈ searchPairs, 1 ≤ rc.1 ∧ 1 ≤ rc.2 := by
  intro rc hrc
  simp only [searchPairs] at hrc
  rcases List.mem_flatMap.mp hrc with ⟨r, hr, hmem⟩
  rcases List.mem_map.mp hmem with ⟨c, hc, he⟩
  rw [← he]
  refine ⟨?_, ?_⟩ <;> · dsimp only; omega

/-- Path analysis of `_calculate_grid_dimensions` with no file-size
constraint: the returned layout always has at least one row and one
column, and — unless it is the hard-coded fallback `(512, 512, 4, 5)` —
it satisfies both grid-size bounds. -/
theorem calculateGridDimensions_spec (afsc : ℤ → ℤ → ℤ → ℤ → ℚ → ℤ × ℤ)
    (cfg : AdaptiveConfig) (aspectRatio : ℚ) (srcW srcH : ℤ)
    (hW : 0 < srcW) (hH : 0 < srcH)
    (hb : 0 ≤ cfg.borderThickness) (hl : 0 ≤ cfg.labelHeight)
    (hfix : ∀ r c, cfg.fixedGridLayout = some (r, c) → 1 ≤ r ∧ 1 ≤ c)
    (hfs : cfg.maxFileSizeMb = none) :
    1 ≤ (calculateGridDimensions afsc cfg aspectRatio srcW srcH).2.2.1 ∧
    1 ≤ (calculateGridDimensions afsc cfg aspectRatio srcW srcH).2.2.2 ∧
    ((calculateGridDimensions afsc cfg aspectRatio srcW srcH)
        ≠ ((512 : ℤ), (512 : ℤ), (4 : ℤ), (5 : ℤ)) →
      FitsLayout cfg (calculateGridDimensions afsc cfg aspectRatio srcW srcH)) := by
  unfold calculateGridDimensions
  cases hfg : cfg.fixedGridLayout with
  | some p =>
    obtain ⟨fixedRows, fixedCols⟩ := p
    obtain ⟨hfr, hfc⟩ := hfix fixedRows fixedCols hfg
    simp only [hfs]
    split
    all_goals
      split
      · exact ⟨by norm_num, by norm_num, fun hne => absurd rfl hne⟩
      · rename_i hok
        rw [not_or] at hok
        refine ⟨hfr, hfc, fun _ => ⟨hfr, hfc, ?_, ?_⟩⟩
        · exact not_lt.mp hok.1
        · exact not_lt.mp hok.2
  | none =>
    simp only [hfs]
    split
    · split
      · exact ⟨by norm_num, by norm_num, fun hne => absurd rfl hne⟩
      · rename_i hok
        rw [not_or] at hok
        have hc1 : 1 ≤ pyFloorDiv (cfg.maxGridWidth - cfg.borderThickness)
            (srcW + cfg.borderThickness) := not_lt.mp hok.1
        have hr1 : 1 ≤ pyFloorDiv (cfg.maxGridHeight - cfg.borderThickness)
            (srcH + cfg.labelHeight + cfg.borderThickness) := not_lt.mp hok.2
        refine ⟨hr1, hc1, fun _ => ⟨hr1, hc1, ?_, ?_⟩⟩
        · have hdpos : (0 : ℤ) < srcW + cfg.borderThickness := by linarith
          have h1 := pyFloorDiv_mul_le (cfg.maxGridWidth - cfg.borderThickness) hdpos
          have hexp : pyFloorDiv (cfg.maxGridWidth - cfg.borderThickness)
                (srcW + cfg.borderThickness) * srcW
              + (pyFloorDiv (cfg.maxGridWidth - cfg.borderThickness)
                  (srcW + cfg.borderThickness) + 1) * cfg.borderThickness
              = pyFloorDiv (cfg.maxGridWidth - cfg.borderThickness)
                  (srcW + cfg.borderThickness) * (srcW + cfg.borderThickness)
                + cfg.borderThickness := by ring
          show pyFloorDiv (cfg.maxGridWidth - cfg.borderThickness)
                (srcW + cfg.borderThickness) * srcW
              + (pyFloorDiv (cfg.maxGridWidth - cfg.borderThickness)
                  (srcW + cfg.borderThickness) + 1) * cfg.borderThickness
              ≤ cfg.maxGridWidth
          rw [hexp]
          linarith
        · have hdpos : (0 : ℤ) < srcH + cfg.labelHeight + cfg.borderThickness := by
            linarith
          have h1 := pyFloorDiv_mul_le (cfg.maxGridHeight - cfg.borderThickness) hdpos
          have hexp : pyFloorDiv (cfg.maxGridHeight - cfg.borderThickness)
                (srcH + cfg.labelHeight + cfg.borderThickness)
                * (srcH + cfg.labelHeight)
              + (pyFloorDiv (cfg.maxGridHeight - cfg.borderThickness)
                  (srcH + cfg.labelHeight + cfg.borderThickness) + 1)
                * cfg.borderThickness
              = pyFloorDiv (cfg.maxGridHeight - cfg.borderThickness)
                  (srcH + cfg.labelHeight + cfg.borderThickness)
                * (srcH + cfg.labelHeight + cfg.borderThickness)
                + cfg.borderThickness := by ring
          show pyFloorDiv (cfg.maxGridHeight - cfg.borderThickness)
                (srcH + cfg.labelHeight + cfg.borderThickness)
                * (srcH + cfg.labelHeight)
              + (pyFloorDiv (cfg.maxGridHeight - cfg.borderThickness)
                  (srcH + cfg.labelHeight + cfg.borderThickness) + 1)
                * cfg.borderThickness
              ≤ cfg.maxGridHeight
          rw [hexp]
          linarith
    · have hinv := searchFold_inv cfg aspectRatio searchPairs (0, none)
        searchPairs_pos (fun l hl => by simp at hl)
      split
      · exact ⟨by norm_num, by norm_num, fun hne => absurd rfl hne⟩
      · rename_i cw ch rows cols hsome
        have hfit := hinv (cw, ch, rows, cols) hsome
        exact ⟨hfit.1, hfit.2.1, fun _ => hfit⟩

/-- Ceiling division bound: `⌈T / F⌉ ≤ M` whenever `T ≤ F·M`. -/
theorem ceilDiv_le {T F M : ℤ} (hF : 0 < F) (h : T ≤ F * M) :
    pyFloorDiv (T + F - 1) F ≤ M := by
  rw [pyFloorDiv_le_iff hF]
  nlinarith

/-- After sampling, the extracted frame count fits the total capacity:
`⌈T / ⌈T/mt⌉⌉ ≤ mt` for `0 < mt < T`. -/
theorem sampled_le {T mt : ℤ} (hmt : 0 < mt) (h : mt < T) :
    pyFloorDiv (T + pyFloorDiv (T + mt - 1) mt - 1)
      (pyFloorDiv (T + mt - 1) mt) ≤ mt := by
  have hs1 : 1 ≤ pyFloorDiv (T + mt - 1) mt :=
    (le_pyFloorDiv_iff hmt).mpr (by linarith)
  have hup : T + mt - 1 < (pyFloorDiv (T + mt - 1) mt + 1) * mt :=
    (pyFloorDiv_le_iff hmt).mp le_rfl
  have hsmt : T ≤ pyFloorDiv (T + mt - 1) mt * mt := by nlinarith
  exact ceilDiv_le (by linarith) (by linarith [mul_comm (pyFloorDiv (T + mt - 1) mt) mt])

theorem ratTrunc_nonneg {q : ℚ} (h : 0 ≤ q) : 0 ≤ ratTrunc q := by
  unfold ratTrunc
  rw [if_neg (not_lt.mpr h)]
  exact Rat.le_floor.mpr (by exact_mod_cast h)

/-- **C9 (amended).**  Adaptive layout bounds, for well-formed inputs
(positive source resolution, nonnegative border/label sizes, a fixed grid
layout — when configured — of at least 1×1, at least one grid image
allowed, nonnegative duration and fps) and no file-size constraint:
unless the returned layout is the hard-coded fallback `(512, 512, 4, 5)`,
it satisfies `grid_cols·cell_width + (grid_cols+1)·border ≤ max_grid_width`
and `grid_rows·(cell_height+label_height) + (grid_rows+1)·border ≤
max_grid_height`; and in every case `num_grids_needed ≤ max_grid_images`. -/
theorem adaptive_layout_bounds (afsc : ℤ → ℤ → ℤ → ℤ → ℚ → ℤ × ℤ)
    (cfg : AdaptiveConfig) (videoDuration sourceFps : ℚ) (srcW srcH : ℤ)
    (hW : 0 < srcW) (hH : 0 < srcH)
    (hb : 0 ≤ cfg.borderThickness) (hl : 0 ≤ cfg.labelHeight)
    (hfix : ∀ r c, cfg.fixedGridLayout = some (r, c) → 1 ≤ r ∧ 1 ≤ c)
    (hfs : cfg.maxFileSizeMb = none)
    (hdur : 0 ≤ videoDuration) (hfps : 0 ≤ sourceFps)
    (hM : 1 ≤ cfg.maxGridImages) :
    (((calculateOptimalLayout afsc cfg videoDuration sourceFps srcW
          srcH).cellWidth,
        (calculateOptimalLayout afsc cfg videoDuration sourceFps srcW
          srcH).cellHeight,
        (calculateOptimalLayout afsc cfg videoDuration sourceFps srcW
          srcH).gridRows,
        (calculateOptimalLayout afsc cfg videoDuration sourceFps srcW
          srcH).gridCols) ≠ ((512 : ℤ), (512 : ℤ), (4 : ℤ), (5 : ℤ)) →
      (calculateOptimalLayout afsc cfg videoDuration sourceFps srcW
            srcH).gridCols
          * (calculateOptimalLayout afsc cfg videoDuration sourceFps srcW
            srcH).cellWidth
        + ((calculateOptimalLayout afsc cfg videoDuration sourceFps srcW
            srcH).gridCols + 1) * cfg.borderThickness
          ≤ cfg.maxGridWidth ∧
        (calculateOptimalLayout afsc cfg videoDuration sourceFps srcW
            srcH).gridRows
          * ((calculateOptimalLayout afsc cfg videoDuration sourceFps srcW
            srcH).cellHeight + cfg.labelHeight)
        + ((calculateOptimalLayout afsc cfg videoDuration sourceFps srcW
            srcH).gridRows + 1) * cfg.borderThickness
          ≤ cfg.maxGridHeight) ∧
    (calculateOptimalLayout afsc cfg videoDuration sourceFps srcW
        srcH).numGridsNeeded ≤ cfg.maxGridImages := by
  have hspec := calculateGridDimensions_spec afsc cfg
    ((srcW : ℚ) / (srcH : ℚ)) srcW srcH hW hH hb hl hfix hfs
  set g := calculateGridDimensions afsc cfg ((srcW : ℚ) / (srcH : ℚ)) srcW srcH
    with hg
  obtain ⟨hr1, hc1, hfit⟩ := hspec
  have hfpg : (1 : ℤ) ≤ g.2.2.1 * g.2.2.2 := by nlinarith
  constructor
  · intro hne
    have hfits : FitsLayout cfg g := by
      apply hfit
      intro heq
      apply hne
      simp only [calculateOptimalLayout, hg.symm, heq]
    exact ⟨hfits.2.2.1, hfits.2.2.2⟩
  · have hT : 0 ≤ ratTrunc (videoDuration * sourceFps) :=
      ratTrunc_nonneg (mul_nonneg hdur hfps)
    have hmt : (1 : ℤ) ≤ g.2.2.1 * g.2.2.2 * cfg.maxGridImages := by nlinarith
    simp only [calculateOptimalLayout, hg.symm]
    by_cases hcase : ratTrunc (videoDuration * sourceFps)
        ≤ g.2.2.1 * g.2.2.2 * cfg.maxGridImages
    · simp only [if_pos hcase]
      exact ceilDiv_le (by linarith) (by linarith [mul_comm (g.2.2.1 * g.2.2.2) cfg.maxGridImages])
    · simp only [if_neg hcase]
      push_neg at hcase
      have hfte := sampled_le (by linarith : (0 : ℤ) < g.2.2.1 * g.2.2.2 * cfg.maxGridImages) hcase
      exact ceilDiv_le (by linarith)
        (by linarith [mul_comm (g.2.2.1 * g.2.2.2) cfg.maxGridImages])

/-- Witness for `adaptive_layout_bounds`: the default configuration
(8000×8000 grids, 20 images, 8-px borders, 40-px labels) on a 60-second
25-fps 1920×1080 source. -/
theorem adaptive_layout_bounds_witness :
    (calculateOptimalLayout afscId
        ⟨8000, 8000, 20, 8, 40, false, none, none⟩ 60 25 1920
        1080).numGridsNeeded ≤ (20 : ℤ) :=
  (adaptive_layout_bounds afscId ⟨8000, 8000, 20, 8, 40, false, none, none⟩
    60 25 1920 1080 (by norm_num) (by norm_num) (by norm_num) (by norm_num)
    (fun r c h => by simp at h) rfl (by norm_num) (by norm_num)
    (by norm_num)).2

end MediaPipeline
